import Mathlib

/-!
Shallow embedding of the repoclip ingestion/export core
(`app/utils.py`, `app/services.py`) and proofs about it.

Modelling conventions:
* An absolute POSIX path is its list of components below `/`
  (`/a/b` is `["a", "b"]`, `/` is `[]`).  The filesystem is symlink-free
  unless a symlink object is modelled explicitly, so `Path.resolve()`
  is purely lexical `..`-elimination.
* Python strings are Lean `String`s; the character-level operations
  (`strip`, `lower`, regex `\w`, code-point comparison) are modelled on
  `String.data` over their ASCII core, matching CPython on ASCII input.
* Sets written as Python set literals are modelled as lists with
  membership tests; Python's `sorted` is a stable sort, and so is
  `List.insertionSort` with a non-strict total preorder, so the two
  agree; `insertionSort` is used because it evaluates by kernel
  reduction.
-/

namespace Repoclip

/-- An absolute path, as its components below the filesystem root. -/
abbrev PathC := List String

/-! ## Character/string helpers (ASCII core of the CPython behaviour) -/

/-- Regex `\w` (ASCII core): letters, digits, underscore. -/
def wordChar (c : Char) : Bool := c.isAlphanum || c == '_'

/-- Characters the `safe_filename` regex keeps: `\w`, `.`, `-`. -/
def allowedFnameChar (c : Char) : Bool := wordChar c || c == '.' || c == '-'

/-- Python `str.strip()` on the character list. -/
def stripChars (cs : List Char) : List Char :=
  ((cs.dropWhile Char.isWhitespace).reverse.dropWhile Char.isWhitespace).reverse

/-- `re.sub(r"[^\w.\-]+", "_", ·)`: each maximal run of disallowed
characters becomes a single underscore.  The flag records whether the
previous character was part of a disallowed run. -/
def collapseAux : Bool → List Char → List Char
  | _, [] => []
  | inBad, c :: cs =>
    if allowedFnameChar c then c :: collapseAux false cs
    else if inBad then collapseAux true cs
    else '_' :: collapseAux true cs

def collapseBad (cs : List Char) : List Char := collapseAux false cs

/-- `utils.safe_filename`. -/
def safe_filename (s : String) : String :=
  if String.mk (collapseBad (stripChars s.data)) == "" then "upload.zip"
  else String.mk (collapseBad (stripChars s.data))

/-- Python `str.lower()` (ASCII core). -/
def strLower (s : String) : String := String.mk (s.data.map Char.toLower)

/-- Python string comparison: lexicographic on code points. -/
def charListLe : List Char → List Char → Bool
  | [], _ => true
  | _ :: _, [] => false
  | a :: as, b :: bs =>
    if a.toNat < b.toNat then true
    else if b.toNat < a.toNat then false
    else charListLe as bs

/-- `s ≤ t` as Python compares strings. -/
def pyStrLe (s t : String) : Bool := charListLe s.data t.data

/-- Python `str.startswith` (one prefix). -/
def pyStartsWith (s pre : String) : Bool := pre.data.isPrefixOf s.data

/-! ## Path model -/

/-- Split a character list at `/`. -/
def splitSlashAux : List Char → List Char → List (List Char)
  | [], acc => [acc.reverse]
  | c :: rest, acc =>
    if c == '/' then acc.reverse :: splitSlashAux rest []
    else splitSlashAux rest (c :: acc)

/-- `pathlib` parsing of a relative path string into components:
split on `/`, dropping empty components and `.` (pathlib normalises
those away at construction; `..` is kept). -/
def pyParts (s : String) : List String :=
  ((splitSlashAux s.data []).map String.mk).filter (fun p => p != "" && p != ".")

/-- `PurePosixPath.is_absolute()`. -/
def pyIsAbsolute (s : String) : Bool :=
  match s.data with
  | [] => false
  | c :: _ => c == '/'

/-- `base / s` in pathlib: an absolute right operand replaces the base. -/
def pyJoin (base : PathC) (s : String) : PathC :=
  if pyIsAbsolute s then pyParts s else base ++ pyParts s

/-- One step of lexical resolution: `..` pops (the root absorbs it),
`.` and empty components vanish, anything else is appended. -/
def resolveStep (acc : PathC) (c : String) : PathC :=
  if c == ".." then acc.dropLast
  else if c == "." || c == "" then acc
  else acc ++ [c]

/-- `Path.resolve()` in a symlink-free filesystem: lexical normalisation. -/
def resolveP (p : PathC) : PathC := p.foldl resolveStep []

/-- `Path.parents`: every proper ancestor, down to the root `[]`. -/
def parentsOf (p : PathC) : List PathC :=
  (List.range p.length).map (fun n => p.take n)

/-- `utils.is_within_base`: `base == path or base in path.parents`. -/
def is_within_base (path base : PathC) : Bool :=
  base == path || (parentsOf path).contains base

/-- `utils.session_dir_path` with the resolved safe root as a parameter:
join the session id under the root, resolve, and reject the result
unless it is the root or strictly below it. -/
def session_dir_path (root : PathC) (sessionId : String) : Except String PathC :=
  if !((parentsOf (resolveP (pyJoin root sessionId))).contains root)
      && resolveP (pyJoin root sessionId) != root then
    .error "Invalid session path"
  else
    .ok (resolveP (pyJoin root sessionId))

/-! ## Basic path lemmas -/

theorem list_contains_iff {α : Type} [BEq α] [LawfulBEq α] {l : List α} {a : α} :
    l.contains a = true ↔ a ∈ l := by
  simp [List.contains, List.elem_iff]

theorem mem_parentsOf {p b : PathC} :
    b ∈ parentsOf p ↔ ∃ n, n < p.length ∧ b = p.take n := by
  simp [parentsOf, List.mem_map, List.mem_range]
  constructor
  · rintro ⟨n, hn, rfl⟩; exact ⟨n, hn, rfl⟩
  · rintro ⟨n, hn, rfl⟩; exact ⟨n, hn, rfl⟩

theorem parentsOf_strict_ancestor {p b : PathC} (h : b ∈ parentsOf p) :
    b <+: p ∧ b ≠ p := by
  rcases mem_parentsOf.1 h with ⟨n, hn, rfl⟩
  refine ⟨List.take_prefix n p, ?_⟩
  intro hEq
  have hlen : (List.take n p).length = p.length := by rw [hEq]
  simp [List.length_take] at hlen
  omega

theorem prefix_mem_parentsOf {p b : PathC} (hpre : b <+: p) (hne : b ≠ p) :
    b ∈ parentsOf p := by
  have htake := List.prefix_iff_eq_take.1 hpre
  have hlt : b.length < p.length := by
    have hle := hpre.length_le
    rcases Nat.lt_or_ge b.length p.length with h | h
    · exact h
    · exfalso
      apply hne
      have : b.length = p.length := Nat.le_antisymm hle h
      rw [htake, this, List.take_length]
  exact mem_parentsOf.2 ⟨b.length, hlt, htake⟩

/-- `is_within_base path base` holds exactly when `base` is a
(possibly equal) ancestor of `path`. -/
theorem is_within_base_iff {path base : PathC} :
    is_within_base path base = true ↔ base <+: path := by
  unfold is_within_base
  simp only [Bool.or_eq_true, beq_iff_eq, list_contains_iff]
  constructor
  · rintro (rfl | h)
    · exact List.prefix_refl _
    · exact (parentsOf_strict_ancestor h).1
  · intro h
    by_cases heq : base = path
    · exact Or.inl heq
    · exact Or.inr (prefix_mem_parentsOf h heq)

/-- Resolution processes the two halves of a join in sequence. -/
theorem resolveP_append_eq (a b : List String) :
    resolveP (a ++ b) = b.foldl resolveStep (resolveP a) := by
  unfold resolveP
  rw [List.foldl_append]

/-- A resolved path has no `..`, `.`, or empty components. -/
theorem resolveP_clean (p : PathC) :
    ∀ c ∈ resolveP p, c ≠ ".." ∧ c ≠ "." ∧ c ≠ "" := by
  unfold resolveP
  suffices h : ∀ acc : PathC, (∀ c ∈ acc, c ≠ ".." ∧ c ≠ "." ∧ c ≠ "") →
      ∀ c ∈ p.foldl resolveStep acc, c ≠ ".." ∧ c ≠ "." ∧ c ≠ "" by
    exact h [] (by simp)
  induction p with
  | nil => exact fun acc hacc => hacc
  | cons x xs ih =>
    intro acc hacc
    rw [List.foldl_cons]
    apply ih
    unfold resolveStep
    split
    · exact fun c hc => hacc c (List.dropLast_sublist _ |>.mem hc)
    split
    · exact hacc
    · rename_i hdd hde
      intro d hd
      rcases List.mem_append.1 hd with h | h
      · exact hacc d h
      · rw [List.mem_singleton] at h
        subst h
        simp only [Bool.or_eq_true, beq_iff_eq, not_or] at hdd hde
        exact ⟨hdd, hde.1, hde.2⟩

/-- Resolving a path with no special components leaves it unchanged. -/
theorem resolveP_of_clean : ∀ p : PathC,
    (∀ c ∈ p, c ≠ ".." ∧ c ≠ "." ∧ c ≠ "") → resolveP p = p := by
  suffices h : ∀ (p : PathC) (acc : PathC),
      (∀ c ∈ p, c ≠ ".." ∧ c ≠ "." ∧ c ≠ "") →
      p.foldl resolveStep acc = acc ++ p by
    intro p hp
    unfold resolveP
    rw [h p [] hp]
    rfl
  intro p
  induction p with
  | nil => intro acc _; simp
  | cons x xs ih =>
    intro acc hp
    obtain ⟨h1, h2, h3⟩ := hp x (List.mem_cons_self _ _)
    rw [List.foldl_cons]
    rw [show resolveStep acc x = acc ++ [x] from by
      unfold resolveStep
      rw [if_neg (by simpa using h1), if_neg (by simp [h2, h3])]]
    rw [ih _ (fun c hc => hp c (List.mem_cons_of_mem _ hc))]
    simp

theorem resolveP_idem (p : PathC) : resolveP (resolveP p) = resolveP p :=
  resolveP_of_clean _ (resolveP_clean p)

/-! ## Archive extraction (`utils.unzip_to`, `services.unpack_zip_to_session`)

The filesystem is modelled as an explicit state: the set of existing
directories and the regular files with their byte content, all keyed by
fully resolved absolute paths.  Extraction is the fold of the per-entry
body of `unzip_to`'s loop over the archive's entry list. -/

/-- One member of a zip archive: its declared name, the external
attributes word, and the bytes it would write. -/
structure ZipEntry where
  filename : String
  externalAttr : Nat
  content : String
deriving Repr, DecidableEq

/-- `unzip_to.is_symlink_zipinfo`: Unix file-type bits in the upper
half of `external_attr` equal `S_IFLNK`. -/
def is_symlink_zipinfo (e : ZipEntry) : Bool :=
  (e.externalAttr >>> 16) &&& 0o170000 == 0o120000

/-- `ZipInfo.is_dir()`: the declared name ends with `/`. -/
def zipIsDir (e : ZipEntry) : Bool :=
  match e.filename.data.getLast? with
  | some c => c == '/'
  | none => false

/-- Filesystem state: existing directories, and files with content. -/
structure ExtractState where
  dirs : List PathC
  files : List (PathC × String)
deriving Repr, DecidableEq

/-- All prefixes of a path, itself included (its ancestors plus itself). -/
def prefixesIncl (p : PathC) : List PathC :=
  (List.range (p.length + 1)).map (fun n => p.take n)

/-- `p.mkdir(parents=True, exist_ok=True)`: create every missing
ancestor of `p` and `p` itself. -/
def mkdirParents (st : ExtractState) (p : PathC) : ExtractState :=
  { st with dirs := st.dirs ++ (prefixesIncl p).filter (fun q => !st.dirs.contains q) }

/-- `target.open('wb')` + `copyfileobj`: (over)write the file at `p`. -/
def writeFile (st : ExtractState) (p : PathC) (content : String) : ExtractState :=
  { st with files := st.files.filter (fun pc => pc.1 != p) ++ [(p, content)] }

/-- `(dir_path / member_path).resolve()`, with `base` already resolved
(resolution distributes over the join, see `resolveP_append_eq`). -/
def entryTarget (base : PathC) (e : ZipEntry) : PathC :=
  resolveP (base ++ pyParts e.filename)

/-- Taking the base already resolved is faithful: `entryTarget` over
`resolveP dirPath` computes `(dir_path / member_path).resolve()` for the
original, unresolved directory path. -/
theorem entryTarget_eq (dirPath : PathC) (e : ZipEntry) :
    entryTarget (resolveP dirPath) e = resolveP (dirPath ++ pyParts e.filename) := by
  unfold entryTarget
  rw [resolveP_append_eq, resolveP_append_eq, resolveP_idem]

/-- The body of `unzip_to`'s per-member loop: skip symlink entries,
absolute names, and targets that escape the destination; create
directory entries; write file entries below their (created) parent. -/
def processEntry (base : PathC) (st : ExtractState) (e : ZipEntry) : ExtractState :=
  if is_symlink_zipinfo e then st
  else if pyIsAbsolute e.filename then st
  else if !is_within_base (entryTarget base e) base then st
  else if zipIsDir e then mkdirParents st (entryTarget base e)
  else writeFile (mkdirParents st (entryTarget base e).dropLast) (entryTarget base e) e.content

/-- The whole extraction loop of `unzip_to`. -/
def extractEntries (base : PathC) (st : ExtractState) (es : List ZipEntry) : ExtractState :=
  es.foldl (processEntry base) st

/-- The archive argument of `unzip_to` as observed by the code:
whether the file exists, its `stat().st_size`, and its member list. -/
structure Archive where
  existsOnDisk : Bool
  size : Nat
  entries : List ZipEntry
deriving Repr, DecidableEq

/-- `Path.name`: the last component (empty for the root). -/
def pyName (p : PathC) : String := p.getLastD ""

/-- `dir_path.iterdir()`: the direct children of `base` present in the
state (each listed once). -/
def childrenOfDir (st : ExtractState) (base : PathC) : List PathC :=
  ((st.dirs ++ st.files.map Prod.fst).filter
    (fun p => p.length == base.length + 1 && base.isPrefixOf p)).dedup

/-- `[p for p in dir_path.iterdir() if not p.name.startswith(("__MACOSX", "."))]`. -/
def unzipTopEntries (st : ExtractState) (base : PathC) : List PathC :=
  (childrenOfDir st base).filter
    (fun p => !(pyStartsWith (pyName p) "__MACOSX" || pyStartsWith (pyName p) "."))

/-- The "unwrap" step at the end of `unzip_to`: if exactly one
non-metadata entry remains and it is a directory, it is the repo root. -/
def unzipRoot (st : ExtractState) (base : PathC) : PathC :=
  match unzipTopEntries st base with
  | [p] => if st.dirs.contains p then p else base
  | _ => base

/-- The filesystem state after `unzip_to`'s `mkdir` + extraction loop. -/
def unzipFinalState (st : ExtractState) (dirPath : PathC) (ar : Archive) : ExtractState :=
  extractEntries (resolveP dirPath) (mkdirParents st (resolveP dirPath)) ar.entries

/-- `utils.unzip_to`: reject a missing or zero-byte archive, create the
destination, extract every member, and return the (possibly unwrapped)
repository root together with the resulting filesystem state. -/
def unzip_to (st : ExtractState) (dirPath : PathC) (ar : Archive) :
    Except String (PathC × ExtractState) :=
  if !ar.existsOnDisk then .error "ZIP not found"
  else if ar.size == 0 then .error "ZIP empty"
  else
    .ok (unzipRoot (unzipFinalState st dirPath ar) (resolveP dirPath),
         unzipFinalState st dirPath ar)

/-- `services.unpack_zip_to_session`'s clearing loop: remove every
direct child of `base` (directories recursively), keeping `base`. -/
def clearChildren (st : ExtractState) (base : PathC) : ExtractState :=
  { dirs := st.dirs.filter (fun p => !(base.isPrefixOf p && p != base)),
    files := st.files.filter (fun pc => !(base.isPrefixOf pc.1 && pc.1 != base)) }

/-- `shutil.move(item, target_root / item.name)` for a direct child of
`base`, applied to any path below that child. -/
def remapPath (base target : PathC) (p : PathC) : PathC :=
  if base.isPrefixOf p && decide (base.length < p.length) then
    if base ++ [p.getD base.length ""] == target then p
    else target ++ p.drop base.length
  else p

/-- The wrap-up loop of `unpack_zip_to_session`: move every direct
child of `base` (except the target itself) into `target`. -/
def moveChildren (st : ExtractState) (base target : PathC) : ExtractState :=
  { dirs := st.dirs.map (remapPath base target),
    files := st.files.map (fun pc => (remapPath base target pc.1, pc.2)) }

/-- The per-result wrap-up of `unpack_zip_to_session`: when the zip's
root is the session folder itself, wrap the flattened content into a
folder named from the upload (`safe_filename(uploaded_zip_path.stem)`). -/
def unpackWrap (base : PathC) (zipStem : String)
    (rs : PathC × ExtractState) : ExtractState × PathC × String :=
  if rs.1 == base then
    (moveChildren (mkdirParents rs.2 (resolveP (base ++ pyParts (safe_filename zipStem)))) base
       (resolveP (base ++ pyParts (safe_filename zipStem))),
     resolveP (base ++ pyParts (safe_filename zipStem)),
     pyName (resolveP (base ++ pyParts (safe_filename zipStem))))
  else
    (rs.2, rs.1, pyName rs.1)

/-- `services.unpack_zip_to_session`: ensure the session directory
exists, clear its previous content, extract the archive into it, and
wrap a flattened result into a directory named after the archive
(errors from `unzip_to` propagate unchanged). -/
def unpack_zip_to_session (st : ExtractState) (base : PathC) (ar : Archive)
    (zipStem : String) : Except String (ExtractState × PathC × String) :=
  (unzip_to (clearChildren (mkdirParents st base) base) base ar).map
    (unpackWrap base zipStem)

theorem mem_collapseAux {cs : List Char} {b : Bool} {c : Char}
    (h : c ∈ collapseAux b cs) : allowedFnameChar c = true := by
  induction cs generalizing b with
  | nil => simp [collapseAux] at h
  | cons d ds ih =>
    unfold collapseAux at h
    by_cases hd : allowedFnameChar d = true
    · rw [if_pos hd] at h
      rcases List.mem_cons.1 h with rfl | h'
      · exact hd
      · exact ih h'
    · rw [if_neg hd] at h
      cases b with
      | true =>
        rw [if_pos rfl] at h
        exact ih h
      | false =>
        rw [if_neg Bool.false_ne_true] at h
        rcases List.mem_cons.1 h with rfl | h'
        · decide
        · exact ih h'

theorem mem_collapseBad {cs : List Char} {c : Char} (h : c ∈ collapseBad cs) :
    allowedFnameChar c = true := mem_collapseAux h

/-- C10: `safe_filename` always returns a nonempty string made only of
word characters, dots and hyphens — in particular it never contains a
path separator — and it falls back to the constant `"upload.zip"`
exactly when sanitisation leaves nothing. -/
theorem safe_filename_sound (s : String) :
    safe_filename s ≠ "" ∧
    (∀ c ∈ (safe_filename s).data, allowedFnameChar c = true) ∧
    '/' ∉ (safe_filename s).data ∧
    (String.mk (collapseBad (stripChars s.data)) = "" →
      safe_filename s = "upload.zip") := by
  have hchars : ∀ c ∈ (safe_filename s).data, allowedFnameChar c = true := by
    intro c hc
    unfold safe_filename at hc
    split at hc
    · have hup : ∀ d ∈ ("upload.zip" : String).data, allowedFnameChar d = true := by
        decide
      exact hup c hc
    · exact mem_collapseBad hc
  refine ⟨?_, hchars, ?_, ?_⟩
  · unfold safe_filename
    split
    · decide
    · rename_i hne
      simp only [beq_iff_eq] at hne
      exact hne
  · intro hmem
    have := hchars _ hmem
    simp [allowedFnameChar, wordChar, Char.isAlphanum, Char.isAlpha,
      Char.isUpper, Char.isLower, Char.isDigit] at this
  · intro hempty
    unfold safe_filename
    rw [if_pos (beq_iff_eq.2 hempty)]

/-- C1: whenever `session_dir_path` succeeds, the returned directory is
the safe root itself or a strict descendant of it; hence no session
identifier — traversal sequences included — can yield a session
directory outside the safe root. -/
theorem session_dir_path_stays_in_root (root : PathC) (sessionId : String)
    (d : PathC) (h : session_dir_path root sessionId = .ok d) :
    is_within_base d root = true := by
  unfold session_dir_path at h
  split at h
  · exact absurd h (by simp)
  · rename_i hcond
    simp only [Except.ok.injEq] at h
    subst h
    unfold is_within_base
    rcases Bool.and_eq_false_iff.1 (Bool.not_eq_true _ ▸ hcond) with hc | hc
    · have hcontains : (parentsOf (resolveP (pyJoin root sessionId))).contains root = true := by
        revert hc; cases (parentsOf (resolveP (pyJoin root sessionId))).contains root <;> simp
      rw [hcontains, Bool.or_true]
    · have heq : resolveP (pyJoin root sessionId) = root := by
        revert hc; simp [bne]
      rw [heq, beq_self_eq_true, Bool.true_or]

/-- Witness for C1 at a concrete session id. -/
theorem session_dir_path_stays_in_root_witness :
    is_within_base ["safe", "sess1"] ["safe"] = true :=
  session_dir_path_stays_in_root ["safe"] "sess1" ["safe", "sess1"] rfl

/-! ## Extraction lemmas -/

theorem mem_prefixesIncl {p q : PathC} : q ∈ prefixesIncl p ↔ q <+: p := by
  simp only [prefixesIncl, List.mem_map, List.mem_range]
  constructor
  · rintro ⟨n, _, rfl⟩
    exact List.take_prefix n p
  · intro h
    exact ⟨q.length, Nat.lt_succ_of_le h.length_le,
      (List.prefix_iff_eq_take.1 h).symm⟩

theorem mem_mkdirParents_dirs {st : ExtractState} {p q : PathC} :
    q ∈ (mkdirParents st p).dirs ↔ q ∈ st.dirs ∨ q <+: p := by
  simp only [mkdirParents, List.mem_append, List.mem_filter, mem_prefixesIncl,
    Bool.not_eq_true']
  constructor
  · rintro (h | ⟨h, _⟩)
    · exact Or.inl h
    · exact Or.inr h
  · rintro (h | h)
    · exact Or.inl h
    · by_cases hmem : q ∈ st.dirs
      · exact Or.inl hmem
      · refine Or.inr ⟨h, ?_⟩
        cases hc : st.dirs.contains q
        · rfl
        · exact absurd (list_contains_iff.1 hc) hmem

theorem files_mkdirParents {st : ExtractState} {p : PathC} :
    (mkdirParents st p).files = st.files := rfl

/-- Ancestor closure of a state: every ancestor of an existing
directory exists (true of a real filesystem). -/
def ClosedDirs (st : ExtractState) : Prop :=
  ∀ p ∈ st.dirs, ∀ q, q <+: p → q ∈ st.dirs

/-- Executable form of `ClosedDirs`. -/
def ancestorClosed (st : ExtractState) : Bool :=
  st.dirs.all (fun p => (prefixesIncl p).all (fun q => st.dirs.contains q))

theorem ancestorClosed_iff {st : ExtractState} :
    ancestorClosed st = true ↔ ClosedDirs st := by
  simp only [ancestorClosed, List.all_eq_true, mem_prefixesIncl, list_contains_iff,
    ClosedDirs]

theorem ClosedDirs.mkdirParents_preserved {st : ExtractState} (h : ClosedDirs st)
    (p : PathC) : ClosedDirs (Repoclip.mkdirParents st p) := by
  intro r hr q hq
  rcases mem_mkdirParents_dirs.1 hr with hr' | hr'
  · exact mem_mkdirParents_dirs.2 (Or.inl (h r hr' q hq))
  · exact mem_mkdirParents_dirs.2 (Or.inr (hq.trans hr'))

/-- Creating an already existing directory (ancestors included) is a
no-op. -/
theorem mkdirParents_existing {st : ExtractState} {p : PathC}
    (hcl : ClosedDirs st) (hp : p ∈ st.dirs) : mkdirParents st p = st := by
  unfold mkdirParents
  have : (prefixesIncl p).filter (fun q => !st.dirs.contains q) = [] := by
    apply List.filter_eq_nil_iff.2
    intro q hq
    have hmem := hcl p hp q (mem_prefixesIncl.1 hq)
    simp only [list_contains_iff.2 hmem, Bool.not_true, Bool.false_eq_true,
      not_false_eq_true]
  rw [this, List.append_nil]

/-- If `base` exists and the state is ancestor-closed, every missing
prefix of a path below `base` is itself below `base`. -/
theorem missing_prefix_below {st : ExtractState} {base t q : PathC}
    (hcl : ClosedDirs st) (hb : base ∈ st.dirs) (hbt : base <+: t)
    (hq : q <+: t) (hmiss : q ∉ st.dirs) : base <+: q := by
  rcases le_or_lt q.length base.length with hle | hlt
  · exact absurd (hcl base hb q (List.prefix_of_prefix_length_le hq hbt hle))
      hmiss
  · exact List.prefix_of_prefix_length_le hbt hq (Nat.le_of_lt hlt)

/-- The per-entry invariant: processing one archive member keeps the
state closed, keeps `base`, and only adds directories and files below
`base`. -/
theorem processEntry_inv {base : PathC} {st : ExtractState} (e : ZipEntry)
    (hcl : ClosedDirs st) (hb : base ∈ st.dirs) :
    ClosedDirs (processEntry base st e) ∧ base ∈ (processEntry base st e).dirs ∧
    (∀ q ∈ (processEntry base st e).dirs, q ∈ st.dirs ∨ base <+: q) ∧
    (∀ pc ∈ (processEntry base st e).files, pc ∈ st.files ∨ base <+: pc.1) := by
  unfold processEntry
  split
  · exact ⟨hcl, hb, fun q hq => Or.inl hq, fun pc hpc => Or.inl hpc⟩
  split
  · exact ⟨hcl, hb, fun q hq => Or.inl hq, fun pc hpc => Or.inl hpc⟩
  split
  · exact ⟨hcl, hb, fun q hq => Or.inl hq, fun pc hpc => Or.inl hpc⟩
  rename_i hsym habs hwithin
  have hwb : base <+: entryTarget base e := by
    rw [Bool.not_eq_true', Bool.not_eq_false] at hwithin
    exact is_within_base_iff.1 hwithin
  split
  · -- directory entry: mkdir the target
    refine ⟨hcl.mkdirParents_preserved _, mem_mkdirParents_dirs.2 (Or.inl hb), ?_, ?_⟩
    · intro q hq
      rcases mem_mkdirParents_dirs.1 hq with h | h
      · exact Or.inl h
      · by_cases hmem : q ∈ st.dirs
        · exact Or.inl hmem
        · exact Or.inr (missing_prefix_below hcl hb hwb h hmem)
    · intro pc hpc
      rw [files_mkdirParents] at hpc
      exact Or.inl hpc
  · -- file entry: mkdir the parent, then write the file
    have hparent : ∀ q ∈ (mkdirParents st (entryTarget base e).dropLast).dirs,
        q ∈ st.dirs ∨ base <+: q := by
      intro q hq
      rcases mem_mkdirParents_dirs.1 hq with h | h
      · exact Or.inl h
      · by_cases hmem : q ∈ st.dirs
        · exact Or.inl hmem
        · exact Or.inr (missing_prefix_below hcl hb hwb
            (h.trans (List.dropLast_prefix _)) hmem)
    refine ⟨?_, ?_, ?_, ?_⟩
    · exact hcl.mkdirParents_preserved _
    · exact mem_mkdirParents_dirs.2 (Or.inl hb)
    · exact hparent
    · intro pc hpc
      simp only [writeFile, List.mem_append, List.mem_filter] at hpc
      rcases hpc with ⟨h, _⟩ | h
      · exact Or.inl h
      · simp only [List.mem_singleton] at h
        subst h
        exact Or.inr hwb

/-- The whole-loop invariant for `extractEntries`. -/
theorem extractEntries_inv {base : PathC} (es : List ZipEntry)
    {st : ExtractState} (hcl : ClosedDirs st) (hb : base ∈ st.dirs) :
    ClosedDirs (extractEntries base st es) ∧
    base ∈ (extractEntries base st es).dirs ∧
    (∀ q ∈ (extractEntries base st es).dirs, q ∈ st.dirs ∨ base <+: q) ∧
    (∀ pc ∈ (extractEntries base st es).files, pc ∈ st.files ∨ base <+: pc.1) := by
  induction es generalizing st with
  | nil => exact ⟨hcl, hb, fun q hq => Or.inl hq, fun pc hpc => Or.inl hpc⟩
  | cons e es ih =>
    obtain ⟨hcl', hb', hd', hf'⟩ := processEntry_inv e hcl hb
    obtain ⟨ihcl, ihb, ihd, ihf⟩ := ih hcl' hb'
    refine ⟨ihcl, ihb, ?_, ?_⟩
    · intro q hq
      rcases ihd q hq with h | h
      · exact hd' q h
      · exact Or.inr h
    · intro pc hpc
      rcases ihf pc hpc with h | h
      · exact hf' pc h
      · exact Or.inr h

/-- An entry on which the loop body is a no-op never changes the
extraction result. -/
theorem extractEntries_skip {base : PathC} {e : ZipEntry}
    (hskip : ∀ s : ExtractState, processEntry base s e = s)
    (st : ExtractState) (es1 es2 : List ZipEntry) :
    extractEntries base st (es1 ++ e :: es2) = extractEntries base st (es1 ++ es2) := by
  unfold extractEntries
  rw [List.foldl_append, List.foldl_append, List.foldl_cons, hskip]

theorem processEntry_skip_hostile {base : PathC} {e : ZipEntry}
    (h : pyIsAbsolute e.filename = true ∨ is_within_base (entryTarget base e) base = false)
    (s : ExtractState) : processEntry base s e = s := by
  unfold processEntry
  split
  · rfl
  split
  · rfl
  split
  · rfl
  rename_i hsym habs hwithin
  exfalso
  rcases h with h | h
  · exact habs h
  · rw [Bool.not_eq_true', Bool.not_eq_false] at hwithin
    rw [h] at hwithin
    exact Bool.false_ne_true hwithin

theorem processEntry_skip_symlink {base : PathC} {e : ZipEntry}
    (h : is_symlink_zipinfo e = true) (s : ExtractState) :
    processEntry base s e = s := by
  unfold processEntry
  rw [if_pos h]

/-- C9: `unzip_to` fails outright when the archive file is missing or
has size zero — a zero-byte upload is a hard error, never an
empty-but-successful extraction. -/
theorem unzip_to_requires_nonempty_archive (st : ExtractState) (dirPath : PathC)
    (ar : Archive) (h : ar.existsOnDisk = false ∨ ar.size = 0) :
    (unzip_to st dirPath ar).isOk = false := by
  unfold unzip_to
  rcases h with h | h
  · rw [h]
    rfl
  · rw [h]
    cases hex : ar.existsOnDisk <;> rfl

/-- Witness for C9: a zero-byte archive is rejected. -/
theorem unzip_to_requires_nonempty_archive_witness :
    (unzip_to ⟨[[]], []⟩ ["s"] ⟨true, 0, []⟩).isOk = false :=
  unzip_to_requires_nonempty_archive ⟨[[]], []⟩ ["s"] ⟨true, 0, []⟩ (Or.inr rfl)

/-- C6: an archive member whose external attributes carry the symlink
file-type bits is never materialized: the loop body leaves the
filesystem untouched, and the whole extraction result is as if the
entry were absent. -/
theorem unzip_to_symlink_never_materialized (st : ExtractState) (dirPath : PathC)
    (e : ZipEntry) (hsym : is_symlink_zipinfo e = true) :
    (∀ s : ExtractState, processEntry (resolveP dirPath) s e = s) ∧
    (∀ pres sz es1 es2,
      unzip_to st dirPath ⟨pres, sz, es1 ++ e :: es2⟩ =
        unzip_to st dirPath ⟨pres, sz, es1 ++ es2⟩) := by
  refine ⟨processEntry_skip_symlink hsym, ?_⟩
  intro pres sz es1 es2
  unfold unzip_to unzipFinalState
  rw [extractEntries_skip (processEntry_skip_symlink hsym)]

/-- Witness for C6 at a concrete symlink entry. -/
theorem unzip_to_symlink_never_materialized_witness :
    (∀ s : ExtractState,
      processEntry (resolveP ["s"]) s ⟨"evil", 0o120000 <<< 16, "x"⟩ = s) ∧
    (∀ pres sz es1 es2,
      unzip_to ⟨[[]], []⟩ ["s"] ⟨pres, sz, es1 ++ ⟨"evil", 0o120000 <<< 16, "x"⟩ :: es2⟩ =
        unzip_to ⟨[[]], []⟩ ["s"] ⟨pres, sz, es1 ++ es2⟩) :=
  unzip_to_symlink_never_materialized ⟨[[]], []⟩ ["s"]
    ⟨"evil", 0o120000 <<< 16, "x"⟩ (by decide)

/-- C2: extraction only ever creates directories and files inside the
destination root — assuming the destination directory exists in an
ancestor-closed filesystem — and an entry with an absolute name or an
escaping resolved target is skipped without aborting the extraction of
the remaining entries. -/
theorem unzip_to_zip_slip_safe (st : ExtractState) (dirPath : PathC)
    (hcl : ancestorClosed st = true) (hb : resolveP dirPath ∈ st.dirs) :
    (∀ ar root stF, unzip_to st dirPath ar = .ok (root, stF) →
      (∀ q ∈ stF.dirs, q ∈ st.dirs ∨ is_within_base q (resolveP dirPath) = true) ∧
      (∀ pc ∈ stF.files, pc ∈ st.files ∨ is_within_base pc.1 (resolveP dirPath) = true)) ∧
    (∀ pres sz e es1 es2,
      pyIsAbsolute e.filename = true ∨
        is_within_base (entryTarget (resolveP dirPath) e) (resolveP dirPath) = false →
      unzip_to st dirPath ⟨pres, sz, es1 ++ e :: es2⟩ =
        unzip_to st dirPath ⟨pres, sz, es1 ++ es2⟩) := by
  have hclP : ClosedDirs st := ancestorClosed_iff.1 hcl
  constructor
  · intro ar root stF hok
    have hstF : stF = unzipFinalState st dirPath ar := by
      unfold unzip_to at hok
      split at hok
      · exact absurd hok (by simp)
      split at hok
      · exact absurd hok (by simp)
      simp only [Except.ok.injEq, Prod.mk.injEq] at hok
      exact hok.2.symm
    subst hstF
    unfold unzipFinalState
    rw [mkdirParents_existing hclP hb]
    obtain ⟨_, _, hd, hf⟩ := extractEntries_inv ar.entries hclP hb
    constructor
    · intro q hq
      rcases hd q hq with h | h
      · exact Or.inl h
      · exact Or.inr (is_within_base_iff.2 h)
    · intro pc hpc
      rcases hf pc hpc with h | h
      · exact Or.inl h
      · exact Or.inr (is_within_base_iff.2 h)
  · intro pres sz e es1 es2 hhostile
    unfold unzip_to unzipFinalState
    rw [extractEntries_skip (processEntry_skip_hostile hhostile)]

/-- Witness for C2: a `../..`-style entry changes nothing, and a benign
archive writes only below the destination. -/
theorem unzip_to_zip_slip_safe_witness :
    ((∀ ar root stF, unzip_to ⟨[[], ["s"]], []⟩ ["s"] ar = .ok (root, stF) →
      (∀ q ∈ stF.dirs, q ∈ ([[], ["s"]] : List PathC) ∨ is_within_base q (resolveP ["s"]) = true) ∧
      (∀ pc ∈ stF.files, pc ∈ ([] : List (PathC × String)) ∨ is_within_base pc.1 (resolveP ["s"]) = true)) ∧
    (∀ pres sz e es1 es2,
      pyIsAbsolute e.filename = true ∨
        is_within_base (entryTarget (resolveP ["s"]) e) (resolveP ["s"]) = false →
      unzip_to ⟨[[], ["s"]], []⟩ ["s"] ⟨pres, sz, es1 ++ e :: es2⟩ =
        unzip_to ⟨[[], ["s"]], []⟩ ["s"] ⟨pres, sz, es1 ++ es2⟩)) ∧
    is_within_base (entryTarget (resolveP ["s"]) ⟨"../../escape.txt", 0, "X"⟩)
      (resolveP ["s"]) = false :=
  ⟨unzip_to_zip_slip_safe ⟨[[], ["s"]], []⟩ ["s"] (by decide) (by decide),
   by decide⟩

/-! ## Idempotent re-ingestion (C7)

Two filesystem states are *cone-equivalent* below `base` when they
contain the same directories at or below `base` and the same files
strictly below `base`.  Every step of `unpack_zip_to_session` reads the
filesystem only inside that cone, so cone-equivalent prior states give
the same ingestion result. -/

/-- Same content inside the session cone. -/
def ConeEq (base : PathC) (s t : ExtractState) : Prop :=
  (∀ q, base <+: q → (q ∈ s.dirs ↔ q ∈ t.dirs)) ∧
  (∀ q c, base <+: q → q ≠ base → ((q, c) ∈ s.files ↔ (q, c) ∈ t.files))

theorem mem_writeFile {s : ExtractState} {p q : PathC} {content c : String} :
    (q, c) ∈ (writeFile s p content).files ↔
      ((q, c) ∈ s.files ∧ q ≠ p) ∨ (q = p ∧ c = content) := by
  simp only [writeFile, List.mem_append, List.mem_filter, List.mem_singleton,
    Prod.mk.injEq, bne_iff_ne, ne_eq]

theorem ConeEq.mkdirParents_congr {base : PathC} {s t : ExtractState}
    (h : ConeEq base s t) (p : PathC) :
    ConeEq base (Repoclip.mkdirParents s p) (Repoclip.mkdirParents t p) := by
  refine ⟨?_, ?_⟩
  · intro q hq
    rw [mem_mkdirParents_dirs, mem_mkdirParents_dirs, h.1 q hq]
  · intro q c hq hne
    rw [files_mkdirParents, files_mkdirParents]
    exact h.2 q c hq hne

theorem ConeEq.writeFile {base : PathC} {s t : ExtractState}
    (h : ConeEq base s t) (p : PathC) (content : String) :
    ConeEq base (Repoclip.writeFile s p content) (Repoclip.writeFile t p content) := by
  refine ⟨?_, ?_⟩
  · intro q hq
    exact h.1 q hq
  · intro q c hq hne
    rw [mem_writeFile, mem_writeFile, h.2 q c hq hne]

theorem ConeEq.processEntry {base : PathC} {s t : ExtractState}
    (h : ConeEq base s t) (e : ZipEntry) :
    ConeEq base (Repoclip.processEntry base s e) (Repoclip.processEntry base t e) := by
  unfold Repoclip.processEntry
  split
  · exact h
  split
  · exact h
  split
  · exact h
  split
  · exact h.mkdirParents_congr _
  · exact (h.mkdirParents_congr _).writeFile _ _

theorem ConeEq.extractEntries {base : PathC} (es : List ZipEntry)
    {s t : ExtractState} (h : ConeEq base s t) :
    ConeEq base (Repoclip.extractEntries base s es) (Repoclip.extractEntries base t es) := by
  induction es generalizing s t with
  | nil => exact h
  | cons e es ih => exact ih (h.processEntry e)

theorem mem_childrenOfDir {s : ExtractState} {base p : PathC} :
    p ∈ childrenOfDir s base ↔
      (p.length = base.length + 1 ∧ base <+: p ∧
        (p ∈ s.dirs ∨ ∃ c, (p, c) ∈ s.files)) := by
  simp only [childrenOfDir, List.mem_dedup, List.mem_filter, List.mem_append,
    List.mem_map, Bool.and_eq_true, beq_iff_eq, List.isPrefixOf_iff_prefix]
  constructor
  · rintro ⟨hmem, hlen, hpre⟩
    refine ⟨hlen, hpre, ?_⟩
    rcases hmem with h | ⟨a, ha, hEq⟩
    · exact Or.inl h
    · obtain ⟨q, c⟩ := a
      dsimp at hEq
      subst hEq
      exact Or.inr ⟨c, ha⟩
  · rintro ⟨hlen, hpre, hmem⟩
    refine ⟨?_, hlen, hpre⟩
    rcases hmem with h | ⟨c, hc⟩
    · exact Or.inl h
    · exact Or.inr ⟨(p, c), hc, rfl⟩

/-- A direct child of `base` is a strict descendant of `base`. -/
theorem child_strict {base p : PathC} (hlen : p.length = base.length + 1)
    (hpre : base <+: p) : base <+: p ∧ p ≠ base := by
  refine ⟨hpre, ?_⟩
  intro hEq
  rw [hEq] at hlen
  omega

theorem nodup_unzipTopEntries (s : ExtractState) (base : PathC) :
    (unzipTopEntries s base).Nodup := by
  unfold unzipTopEntries childrenOfDir
  exact (List.nodup_dedup _).filter _

theorem mem_unzipTopEntries {s : ExtractState} {base p : PathC} :
    p ∈ unzipTopEntries s base ↔
      (p.length = base.length + 1 ∧ base <+: p ∧
        (p ∈ s.dirs ∨ ∃ c, (p, c) ∈ s.files)) ∧
      (!(pyStartsWith (pyName p) "__MACOSX" || pyStartsWith (pyName p) ".")) = true := by
  unfold unzipTopEntries
  rw [List.mem_filter, mem_childrenOfDir]

theorem unzipTopEntries_perm {base : PathC} {s t : ExtractState}
    (h : ConeEq base s t) :
    (unzipTopEntries s base).Perm (unzipTopEntries t base) := by
  apply (List.perm_ext_iff_of_nodup
    (nodup_unzipTopEntries s base) (nodup_unzipTopEntries t base)).2
  intro p
  rw [mem_unzipTopEntries, mem_unzipTopEntries]
  constructor
  · rintro ⟨⟨hlen, hpre, hmem⟩, hname⟩
    obtain ⟨_, hne⟩ := child_strict hlen hpre
    refine ⟨⟨hlen, hpre, ?_⟩, hname⟩
    rcases hmem with hd | ⟨c, hc⟩
    · exact Or.inl ((h.1 p hpre).1 hd)
    · exact Or.inr ⟨c, (h.2 p c hpre hne).1 hc⟩
  · rintro ⟨⟨hlen, hpre, hmem⟩, hname⟩
    obtain ⟨_, hne⟩ := child_strict hlen hpre
    refine ⟨⟨hlen, hpre, ?_⟩, hname⟩
    rcases hmem with hd | ⟨c, hc⟩
    · exact Or.inl ((h.1 p hpre).2 hd)
    · exact Or.inr ⟨c, (h.2 p c hpre hne).2 hc⟩

theorem mem_unzipTopEntries_cone {base p : PathC} {s : ExtractState}
    (hmem : p ∈ unzipTopEntries s base) : base <+: p :=
  ((mem_unzipTopEntries.1 hmem).1).2.1

theorem list_contains_congr {α : Type} [BEq α] [LawfulBEq α] {l₁ l₂ : List α}
    {a : α} (h : a ∈ l₁ ↔ a ∈ l₂) : l₁.contains a = l₂.contains a := by
  show List.elem a l₁ = List.elem a l₂
  rw [List.elem_eq_mem, List.elem_eq_mem]
  exact decide_eq_decide.2 h

theorem ConeEq.unzipRoot {base : PathC} {s t : ExtractState}
    (h : ConeEq base s t) :
    Repoclip.unzipRoot s base = Repoclip.unzipRoot t base := by
  have hperm := unzipTopEntries_perm h
  have hcone1 : ∀ p ∈ unzipTopEntries s base, base <+: p :=
    fun p hp => mem_unzipTopEntries_cone hp
  unfold Repoclip.unzipRoot
  generalize hl1 : unzipTopEntries s base = l1 at hperm hcone1 ⊢
  generalize hl2 : unzipTopEntries t base = l2 at hperm ⊢
  cases l1 with
  | nil =>
    have : l2 = [] := hperm.symm.eq_nil
    subst this
    rfl
  | cons p tail =>
    cases tail with
    | nil =>
      have : l2 = [p] := List.perm_singleton.1 hperm.symm
      subst this
      have hpcone : base <+: p := hcone1 p (List.mem_singleton_self p)
      have hdir : s.dirs.contains p = t.dirs.contains p :=
        list_contains_congr (h.1 p hpcone)
      simp only [hdir]
    | cons q tl =>
      have hlen := hperm.length_eq
      cases l2 with
      | nil => simp at hlen
      | cons a tb =>
        cases tb with
        | nil => simp at hlen
        | cons b tc => rfl

/-- `remapPath` only changes strict descendants of `base`. -/
theorem remapPath_of_not_strict {base target p : PathC}
    (h : ¬(base <+: p ∧ base.length < p.length)) :
    remapPath base target p = p := by
  unfold remapPath
  rw [if_neg]
  intro hc
  rw [Bool.and_eq_true] at hc
  exact h ⟨List.isPrefixOf_iff_prefix.1 hc.1, of_decide_eq_true hc.2⟩

theorem strict_iff_length {base p : PathC} :
    (base <+: p ∧ base.length < p.length) ↔ (base <+: p ∧ p ≠ base) := by
  constructor
  · rintro ⟨hpre, hlt⟩
    refine ⟨hpre, ?_⟩
    intro hEq
    rw [hEq] at hlt
    omega
  · rintro ⟨hpre, hne⟩
    refine ⟨hpre, ?_⟩
    rcases Nat.lt_or_ge base.length p.length with h | h
    · exact h
    · exfalso
      apply hne
      have hlen : p.length = base.length := Nat.le_antisymm h hpre.length_le
      exact (List.IsPrefix.eq_of_length hpre hlen.symm).symm

theorem mem_moveChildren_dirs {s : ExtractState} {base target q : PathC} :
    q ∈ (moveChildren s base target).dirs ↔
      ((∃ p, (base <+: p ∧ p ≠ base) ∧ p ∈ s.dirs ∧ remapPath base target p = q) ∨
        (¬(base <+: q ∧ q ≠ base) ∧ q ∈ s.dirs)) := by
  simp only [moveChildren, List.mem_map]
  constructor
  · rintro ⟨p, hp, rfl⟩
    by_cases hstrict : base <+: p ∧ base.length < p.length
    · exact Or.inl ⟨p, strict_iff_length.1 hstrict, hp, rfl⟩
    · rw [remapPath_of_not_strict hstrict]
      exact Or.inr ⟨fun hc => hstrict (strict_iff_length.2 hc), hp⟩
  · rintro (⟨p, _, hp, hq⟩ | ⟨hq, hmem⟩)
    · exact ⟨p, hp, hq⟩
    · exact ⟨q, hmem, remapPath_of_not_strict (fun hc => hq (strict_iff_length.1 hc))⟩

theorem mem_moveChildren_files {s : ExtractState} {base target q : PathC}
    {c : String} :
    (q, c) ∈ (moveChildren s base target).files ↔
      ((∃ p, (base <+: p ∧ p ≠ base) ∧ (p, c) ∈ s.files ∧ remapPath base target p = q) ∨
        (¬(base <+: q ∧ q ≠ base) ∧ (q, c) ∈ s.files)) := by
  simp only [moveChildren, List.mem_map]
  constructor
  · rintro ⟨a, ha, hEq⟩
    obtain ⟨p, d⟩ := a
    simp only [Prod.mk.injEq] at hEq
    obtain ⟨hq, hcd⟩ := hEq
    subst hcd
    by_cases hstrict : base <+: p ∧ base.length < p.length
    · exact Or.inl ⟨p, strict_iff_length.1 hstrict, ha, hq⟩
    · rw [remapPath_of_not_strict hstrict] at hq
      subst hq
      exact Or.inr ⟨fun hc => hstrict (strict_iff_length.2 hc), ha⟩
  · rintro (⟨p, _, hp, hq⟩ | ⟨hq, hmem⟩)
    · exact ⟨(p, c), hp, by simp [hq]⟩
    · exact ⟨(q, c), hmem,
        by simp [remapPath_of_not_strict (fun hc => hq (strict_iff_length.1 hc))]⟩

theorem ConeEq.moveChildren {base : PathC} {s t : ExtractState}
    (h : ConeEq base s t) (target : PathC) :
    ConeEq base (Repoclip.moveChildren s base target)
      (Repoclip.moveChildren t base target) := by
  refine ⟨?_, ?_⟩
  · intro q hq
    rw [mem_moveChildren_dirs, mem_moveChildren_dirs]
    constructor
    · rintro (⟨p, hps, hp, hpq⟩ | ⟨hnq, hmem⟩)
      · exact Or.inl ⟨p, hps, (h.1 p hps.1).1 hp, hpq⟩
      · exact Or.inr ⟨hnq, (h.1 q hq).1 hmem⟩
    · rintro (⟨p, hps, hp, hpq⟩ | ⟨hnq, hmem⟩)
      · exact Or.inl ⟨p, hps, (h.1 p hps.1).2 hp, hpq⟩
      · exact Or.inr ⟨hnq, (h.1 q hq).2 hmem⟩
  · intro q c hq hne
    rw [mem_moveChildren_files, mem_moveChildren_files]
    constructor
    · rintro (⟨p, hps, hp, hpq⟩ | ⟨hnq, hmem⟩)
      · exact Or.inl ⟨p, hps, (h.2 p c hps.1 hps.2).1 hp, hpq⟩
      · exact absurd ⟨hq, hne⟩ hnq
    · rintro (⟨p, hps, hp, hpq⟩ | ⟨hnq, hmem⟩)
      · exact Or.inl ⟨p, hps, (h.2 p c hps.1 hps.2).2 hp, hpq⟩
      · exact absurd ⟨hq, hne⟩ hnq

theorem strictBelow_eq_decide (base q : PathC) :
    (base.isPrefixOf q && (q != base)) = decide (base <+: q ∧ q ≠ base) := by
  rw [Bool.eq_iff_iff]
  simp only [Bool.and_eq_true, List.isPrefixOf_iff_prefix, bne_iff_ne,
    decide_eq_true_eq, ne_eq]

theorem mem_clearChildren_dirs {s : ExtractState} {base q : PathC} :
    q ∈ (clearChildren s base).dirs ↔
      q ∈ s.dirs ∧ ¬(base <+: q ∧ q ≠ base) := by
  simp only [clearChildren, List.mem_filter, strictBelow_eq_decide,
    Bool.not_eq_true', decide_eq_false_iff_not]

theorem mem_clearChildren_files {s : ExtractState} {base q : PathC} {c : String} :
    (q, c) ∈ (clearChildren s base).files ↔
      (q, c) ∈ s.files ∧ ¬(base <+: q ∧ q ≠ base) := by
  simp only [clearChildren, List.mem_filter, strictBelow_eq_decide,
    Bool.not_eq_true', decide_eq_false_iff_not]

/-- After the session directory is created and its previous content
cleared, any two prior filesystem states agree on the session cone. -/
theorem cleared_coneEq (base : PathC) (st1 st2 : ExtractState) :
    ConeEq base (clearChildren (mkdirParents st1 base) base)
      (clearChildren (mkdirParents st2 base) base) := by
  have hbase : ∀ st : ExtractState, base ∈ (mkdirParents st base).dirs := by
    intro st
    exact mem_mkdirParents_dirs.2 (Or.inr (List.prefix_refl _))
  refine ⟨?_, ?_⟩
  · intro q hq
    rw [mem_clearChildren_dirs, mem_clearChildren_dirs]
    by_cases hb : q = base
    · subst hb
      constructor
      · intro _
        exact ⟨hbase st2, fun hc => hc.2 rfl⟩
      · intro _
        exact ⟨hbase st1, fun hc => hc.2 rfl⟩
    · constructor
      · rintro ⟨_, hno⟩
        exact absurd ⟨hq, hb⟩ hno
      · rintro ⟨_, hno⟩
        exact absurd ⟨hq, hb⟩ hno
  · intro q c hq hne
    rw [mem_clearChildren_files, mem_clearChildren_files]
    constructor
    · rintro ⟨_, hno⟩
      exact absurd ⟨hq, hne⟩ hno
    · rintro ⟨_, hno⟩
      exact absurd ⟨hq, hne⟩ hno

deriving instance DecidableEq for Except

theorem unzip_to_eq_error_notfound {st : ExtractState} {dirPath : PathC}
    {ar : Archive} (hex : ar.existsOnDisk = false) :
    unzip_to st dirPath ar = .error "ZIP not found" := by
  unfold unzip_to
  rw [hex]
  rfl

theorem unzip_to_eq_error_empty {st : ExtractState} {dirPath : PathC}
    {ar : Archive} (hex : ar.existsOnDisk = true) (hsz : ar.size = 0) :
    unzip_to st dirPath ar = .error "ZIP empty" := by
  unfold unzip_to
  rw [hex, hsz]
  rfl

theorem unzip_to_eq_ok {st : ExtractState} {dirPath : PathC} {ar : Archive}
    (hex : ar.existsOnDisk = true) (hsz : ar.size ≠ 0) :
    unzip_to st dirPath ar =
      .ok (unzipRoot (unzipFinalState st dirPath ar) (resolveP dirPath),
           unzipFinalState st dirPath ar) := by
  unfold unzip_to
  rw [hex]
  rw [if_neg (by simp : ¬((!true : Bool) = true))]
  rw [if_neg (by simpa using hsz)]

/-- C7: re-ingesting an archive into the same session is deterministic:
whatever the session held before (in particular, whatever a first
ingestion of the same archive left there), a successful
`unpack_zip_to_session` produces the same repository root, name, and
session-cone content — no residue of prior content survives. -/
theorem unpack_zip_to_session_deterministic (base : PathC)
    (hres : resolveP base = base) (ar : Archive) (zipStem : String)
    (st1 st2 s1 s2 : ExtractState) (r1 r2 : PathC) (n1 n2 : String)
    (h1 : unpack_zip_to_session st1 base ar zipStem = .ok (s1, r1, n1))
    (h2 : unpack_zip_to_session st2 base ar zipStem = .ok (s2, r2, n2)) :
    r1 = r2 ∧ n1 = n2 ∧
    (∀ q, base <+: q → (q ∈ s1.dirs ↔ q ∈ s2.dirs)) ∧
    (∀ q c, base <+: q → q ≠ base → ((q, c) ∈ s1.files ↔ (q, c) ∈ s2.files)) := by
  have hcone0 := cleared_coneEq base st1 st2
  -- the two extractions agree on the cone, and errors do not depend on state
  cases hex : ar.existsOnDisk with
  | false =>
    exfalso
    unfold unpack_zip_to_session at h1
    rw [unzip_to_eq_error_notfound hex] at h1
    exact absurd h1 (by simp [Except.map])
  | true =>
    by_cases hsz : ar.size = 0
    · exfalso
      unfold unpack_zip_to_session at h1
      rw [unzip_to_eq_error_empty hex hsz] at h1
      exact absurd h1 (by simp [Except.map])
    · -- both extractions succeed; the results agree on the cone
      have hconeF : ConeEq base
          (unzipFinalState (clearChildren (mkdirParents st1 base) base) base ar)
          (unzipFinalState (clearChildren (mkdirParents st2 base) base) base ar) := by
        unfold unzipFinalState
        rw [hres]
        exact ConeEq.extractEntries _ (hcone0.mkdirParents_congr base)
      have hroot : unzipRoot
          (unzipFinalState (clearChildren (mkdirParents st1 base) base) base ar)
          (resolveP base) = unzipRoot
          (unzipFinalState (clearChildren (mkdirParents st2 base) base) base ar)
          (resolveP base) := by
        rw [hres]
        exact hconeF.unzipRoot
      unfold unpack_zip_to_session at h1 h2
      rw [unzip_to_eq_ok hex hsz] at h1 h2
      simp only [Except.map, Except.ok.injEq] at h1 h2
      unfold unpackWrap at h1 h2
      rw [hroot] at h1
      split at h1 <;> rename_i hcase
      · rw [if_pos hcase] at h2
        have h1' := h1.symm
        have h2' := h2.symm
        rw [Prod.ext_iff, Prod.ext_iff] at h1' h2'
        have hs1 := h1'.1
        have hr1 := h1'.2.1
        have hn1 := h1'.2.2
        have hs2 := h2'.1
        have hr2 := h2'.2.1
        have hn2 := h2'.2.2
        subst hs1 hr1 hn1 hs2 hr2 hn2
        refine ⟨rfl, rfl, ?_, ?_⟩
        · exact fun q hq => ((hconeF.mkdirParents_congr _).moveChildren _).1 q hq
        · exact fun q c hq hne => ((hconeF.mkdirParents_congr _).moveChildren _).2 q c hq hne
      · rw [if_neg hcase] at h2
        have h1' := h1.symm
        have h2' := h2.symm
        rw [Prod.ext_iff, Prod.ext_iff] at h1' h2'
        have hs1 := h1'.1
        have hr1 := h1'.2.1
        have hn1 := h1'.2.2
        have hs2 := h2'.1
        have hr2 := h2'.2.1
        have hn2 := h2'.2.2
        subst hs1 hr1 hn1 hs2 hr2 hn2
        exact ⟨rfl, rfl, fun q hq => hconeF.1 q hq,
          fun q c hq hne => hconeF.2 q c hq hne⟩

/-- Witness for C7: two different prior session states yield the same
result when the same single-entry archive is ingested. -/
theorem unpack_zip_to_session_deterministic_witness :
    (["s", "z"] : PathC) = ["s", "z"] ∧ ("z" : String) = "z" ∧
    (∀ q, ["s"] <+: q →
      (q ∈ (moveChildren (mkdirParents (unzipFinalState
          (clearChildren (mkdirParents ⟨[[]], []⟩ ["s"]) ["s"]) ["s"]
          ⟨true, 5, [⟨"a.txt", 0, "A"⟩]⟩) ["s", "z"]) ["s"] ["s", "z"]).dirs ↔
       q ∈ (moveChildren (mkdirParents (unzipFinalState
          (clearChildren (mkdirParents ⟨[[], ["s"], ["s", "old"]], [(["s", "f"], "F")]⟩ ["s"]) ["s"]) ["s"]
          ⟨true, 5, [⟨"a.txt", 0, "A"⟩]⟩) ["s", "z"]) ["s"] ["s", "z"]).dirs)) ∧
    (∀ q c, ["s"] <+: q → q ≠ ["s"] →
      ((q, c) ∈ (moveChildren (mkdirParents (unzipFinalState
          (clearChildren (mkdirParents ⟨[[]], []⟩ ["s"]) ["s"]) ["s"]
          ⟨true, 5, [⟨"a.txt", 0, "A"⟩]⟩) ["s", "z"]) ["s"] ["s", "z"]).files ↔
       (q, c) ∈ (moveChildren (mkdirParents (unzipFinalState
          (clearChildren (mkdirParents ⟨[[], ["s"], ["s", "old"]], [(["s", "f"], "F")]⟩ ["s"]) ["s"]) ["s"]
          ⟨true, 5, [⟨"a.txt", 0, "A"⟩]⟩) ["s", "z"]) ["s"] ["s", "z"]).files)) :=
  unpack_zip_to_session_deterministic ["s"] rfl ⟨true, 5, [⟨"a.txt", 0, "A"⟩]⟩ "z"
    ⟨[[]], []⟩ ⟨[[], ["s"], ["s", "old"]], [(["s", "f"], "F")]⟩ _ _ _ _ _ _
    (by decide) (by decide)

/-! ## Markdown pagination (`utils._tree_lines`, `utils.render_markdown_pages`)

A *block* is the list of strings Python appends in one `add_block` call
(one line per element; a whole file's text is a single element).  A
page is kept as its list of blocks so that the no-split property is
visible; joining a page's lines with `"\n"` gives the page string. -/

/-- `Path.suffix` of a file name: the part from the last dot, unless
that dot is the first or last character. -/
def pySuffix (name : String) : String :=
  if (name.data.reverse.takeWhile (fun c => c != '.')).length = name.data.length then ""
  else if (name.data.reverse.takeWhile (fun c => c != '.')).length = 0 then ""
  else if (name.data.reverse.takeWhile (fun c => c != '.')).length = name.data.length - 1 then ""
  else String.mk ('.' :: (name.data.reverse.takeWhile (fun c => c != '.')).reverse)

/-- `str.split("/")` (no dropping of empty parts). -/
def pySplitSlash (s : String) : List String :=
  (splitSlashAux s.data []).map String.mk

/-- A slash-joined relative path (`Path.as_posix()` of a relative path). -/
def relPosix (parts : List String) : String := String.intercalate "/" parts

/-- Node of `_tree_lines.build_tree_structure`: Python's nested dicts
keyed by `(part, is_file)` in insertion order, with the key stored in
the node. -/
inductive PNode where
  | mk (name : String) (isFile : Bool) (children : List PNode)

def PNode.name : PNode → String
  | .mk n _ _ => n

def PNode.isFile : PNode → Bool
  | .mk _ f _ => f

def PNode.children : PNode → List PNode
  | .mk _ _ cs => cs

/-- Inserting one split path into the children forest: walk the parts,
reusing the child with the same `(part, is_file)` key (updating it in
place) or appending a fresh one at the end, exactly as Python's
`setdefault` does. -/
def insertParts : List String → List PNode → List PNode
  | [], cs => cs
  | part :: rest, cs =>
    if cs.any (fun c => c.name == part && c.isFile == rest.isEmpty) then
      cs.map (fun c =>
        if c.name == part && c.isFile == rest.isEmpty then
          .mk c.name c.isFile (insertParts rest c.children)
        else c)
    else
      cs ++ [.mk part rest.isEmpty (insertParts rest [])]

/-- `_tree_lines.build_tree_structure` over the listed relative paths. -/
def build_tree_structure (baseName : String) (paths : List String) : PNode :=
  .mk (baseName ++ "/") false
    (paths.foldl (fun cs p => insertParts (pySplitSlash p) cs) [])

/-- Sort key of `emit_tree`: `(is_file, name.lower())`, compared as
Python compares tuples. -/
def emitKeyLe (a b : String × Bool) : Bool :=
  (!a.2 && b.2) || (a.2 == b.2 && pyStrLe (strLower a.1) (strLower b.1))

/-- `emit_tree`'s loop over the (sorted) children: the last child gets
the `└──` connector and pads with spaces, the others get `├──` and pad
with `│`; a non-file child with children is recursed into. -/
def emitAssemble : List (String × Bool × Bool × List String) → List String
  | [] => []
  | [t] =>
    ("└── " ++ t.1) ::
      (if !t.2.1 && t.2.2.1 then t.2.2.2.map (fun s => "    " ++ s) else [])
  | t :: rest =>
    ("├── " ++ t.1) ::
      (if !t.2.1 && t.2.2.1 then t.2.2.2.map (fun s => "│   " ++ s) else []) ++
      emitAssemble rest

/-! The per-child data `emit_tree` needs: key, whether the child has
children, and the child's emitted lines relative to its own prefix
(prefixes concatenate on the left, so a child's lines are independent
of where the child sits). -/
mutual

def emitRelNode : PNode → List String
  | .mk _ _ cs =>
    emitAssemble (List.insertionSort
      (fun x y => emitKeyLe (x.1, x.2.1) (y.1, y.2.1) = true) (emitRelList cs))

def emitRelList : List PNode → List (String × Bool × Bool × List String)
  | [] => []
  | c :: cs => (c.name, c.isFile, !c.children.isEmpty, emitRelNode c) :: emitRelList cs

end

/-- `utils._tree_lines`. -/
def tree_lines (baseName : String) (relPaths : List String) : List String :=
  ["## Project Tree", "```"] ++
    emitRelNode (build_tree_structure baseName relPaths) ++ ["```", ""]

/-- One file to render: its path components relative to the repository
root, and its text (`none` when `read_text` raises). -/
structure FileEntry where
  relParts : List String
  content : Option String
deriving Repr, DecidableEq

/-- `render_markdown_pages.block_size`: UTF-8 bytes of each line plus
one byte per line terminator. -/
def block_size (lines : List String) : Nat :=
  (lines.map (fun line => line.utf8ByteSize + 1)).sum

/-- Byte size of a page (its blocks' lines flattened). -/
def pageBytes (page : List (List String)) : Nat := block_size page.flatten

/-- The paginator state: closed pages, the current page's blocks, and
the running byte count. -/
structure PackState where
  pages : List (List (List String))
  current : List (List String)
  currentBytes : Nat
deriving Repr, DecidableEq

/-- `render_markdown_pages.flush_page`: close the current page if it
has any line. -/
def flush_page (st : PackState) : PackState :=
  if st.current.flatten.isEmpty then st
  else ⟨st.pages ++ [st.current], [], 0⟩

/-- `render_markdown_pages.add_block`: start a new page first when the
current one has content and would overflow, then append the block. -/
def add_block (maxPageBytes : Nat) (st : PackState) (block : List String) : PackState :=
  if !st.current.flatten.isEmpty && decide (maxPageBytes < st.currentBytes + block_size block) then
    ⟨st.pages ++ [st.current], [block], block_size block⟩
  else
    ⟨st.pages, st.current ++ [block], st.currentBytes + block_size block⟩

/-- The preamble block: title, fixed instructions, and the tree diagram
of the selected files. -/
def preambleBlock (repoName baseName : String) (files : List FileEntry) : List String :=
  ["# " ++ repoName, "",
   "Treat the project tree and source code below as the single source of truth for this session.",
   "Create an internal structured summary of the repository and rely on it for all answers.",
   "All responses must stay fully consistent with the codebase—do not invent details not present here.",
   "If I provide updated files later, update your internal model and briefly describe the changes.",
   ""] ++ tree_lines baseName (files.map (fun f => relPosix f.relParts))

/-- One file's block: heading, opening fence with the language hint,
the file text (or the unreadable placeholder), closing fence, blank. -/
def fileBlock (f : FileEntry) : List String :=
  ("### `" ++ relPosix f.relParts ++ "`") ::
  ("```" ++ String.mk ((pySuffix (f.relParts.getLastD "")).data.dropWhile (fun c => c == '.'))) ::
  (match f.content with
   | some text => text
   | none => "<binary or unreadable file>") ::
  ["```", ""]

/-- The pages of `render_markdown_pages`, with block structure kept. -/
def renderBlocks (repoName baseName : String) (files : List FileEntry)
    (maxPageBytes : Nat) : List (List (List String)) :=
  if files.isEmpty then
    [[["# " ++ repoName, "", "_선택된 파일이 없습니다._"]]]
  else
    (flush_page ((preambleBlock repoName baseName files :: ["## Files"] ::
      files.map fileBlock).foldl (add_block maxPageBytes) ⟨[], [], 0⟩)).pages

/-- `utils.render_markdown_pages`: the page strings (each page's lines
joined by newlines; the dead `if not pages` guard included). -/
def render_markdown_pages (repoName baseName : String) (files : List FileEntry)
    (maxPageBytes : Nat) : List String :=
  if files.isEmpty then
    [String.intercalate "\n" ["# " ++ repoName, "", "_선택된 파일이 없습니다._"]]
  else
    if (flush_page ((preambleBlock repoName baseName files :: ["## Files"] ::
        files.map fileBlock).foldl (add_block maxPageBytes) ⟨[], [], 0⟩)).pages.isEmpty then
      [""]
    else
      ((flush_page ((preambleBlock repoName baseName files :: ["## Files"] ::
        files.map fileBlock).foldl (add_block maxPageBytes) ⟨[], [], 0⟩)).pages).map
        (fun page => String.intercalate "\n" page.flatten)

/-! ## Pagination lemmas (C3, C8) -/

/-- A page respects the budget, or is a single oversized block. -/
def PageOk (maxB : Nat) (page : List (List String)) : Prop :=
  pageBytes page ≤ maxB ∨ ∃ b, page = [b] ∧ block_size b > maxB

theorem block_size_append (a b : List String) :
    block_size (a ++ b) = block_size a + block_size b := by
  simp [block_size]

theorem pageBytes_append_block (page : List (List String)) (b : List String) :
    pageBytes (page ++ [b]) = pageBytes page + block_size b := by
  simp [pageBytes, block_size]

theorem pageBytes_single (b : List String) : pageBytes [b] = block_size b := by
  simp [pageBytes]

/-- The paginator invariant carried through `add_block`. -/
def PackInv (maxB : Nat) (st : PackState) : Prop :=
  (∀ pg ∈ st.pages, PageOk maxB pg) ∧
  st.currentBytes = pageBytes st.current ∧
  (st.current.length ≤ 1 ∨ pageBytes st.current ≤ maxB) ∧
  (∀ blk ∈ st.current, blk ≠ [])

theorem current_flatten_empty_iff {st : PackState}
    (hne : ∀ blk ∈ st.current, blk ≠ []) :
    st.current.flatten.isEmpty = true ↔ st.current = [] := by
  constructor
  · intro h
    cases hcur : st.current with
    | nil => rfl
    | cons b bs =>
      exfalso
      have hb : b ≠ [] := hne b (by rw [hcur]; exact List.mem_cons_self _ _)
      cases hbcase : b with
      | nil => exact hb hbcase
      | cons x xs =>
        rw [hcur, hbcase] at h
        simp [List.flatten] at h
  · intro h
    rw [h]
    rfl

theorem pageOk_of_push {maxB : Nat} {cur : List (List String)}
    (hlen : cur.length ≤ 1 ∨ pageBytes cur ≤ maxB) : PageOk maxB cur := by
  by_cases hle : pageBytes cur ≤ maxB
  · exact Or.inl hle
  · rcases hlen with hlen | hlen
    · cases hcur : cur with
      | nil => exact Or.inl (by simp [hcur, pageBytes, block_size])
      | cons b bs =>
        cases bs with
        | nil =>
          refine Or.inr ⟨b, rfl, ?_⟩
          rw [hcur, pageBytes_single] at hle
          omega
        | cons c cs => simp [hcur] at hlen
    · exact Or.inl hlen

theorem add_block_inv {maxB : Nat} {st : PackState} {b : List String}
    (hb : b ≠ []) (hInv : PackInv maxB st) :
    PackInv maxB (add_block maxB st b) := by
  obtain ⟨hpages, hbytes, hlen, hcur⟩ := hInv
  unfold add_block
  split
  · rename_i hcond
    rw [Bool.and_eq_true, Bool.not_eq_true'] at hcond
    refine ⟨?_, by simp [pageBytes_single], Or.inl (by simp), ?_⟩
    · intro pg hpg
      rcases List.mem_append.1 hpg with h | h
      · exact hpages pg h
      · rw [List.mem_singleton] at h
        subst h
        exact pageOk_of_push hlen
    · intro blk hblk
      rw [List.mem_singleton] at hblk
      subst hblk
      exact hb
  · rename_i hcond
    refine ⟨hpages, by rw [pageBytes_append_block, hbytes], ?_, ?_⟩
    · rw [Bool.and_eq_true, Bool.not_eq_true'] at hcond
      by_cases hemp : st.current.flatten.isEmpty = true
      · have : st.current = [] := (current_flatten_empty_iff hcur).1 hemp
        rw [this]
        exact Or.inl (by simp)
      · have hfit : ¬ maxB < st.currentBytes + block_size b := by
          intro hlt
          exact hcond ⟨by simpa using hemp, by simpa using hlt⟩
        refine Or.inr ?_
        rw [pageBytes_append_block, ← hbytes]
        omega
    · intro blk hblk
      rcases List.mem_append.1 hblk with h | h
      · exact hcur blk h
      · rw [List.mem_singleton] at h
        subst h
        exact hb

theorem foldl_add_block_inv (maxB : Nat) (blocks : List (List String))
    (st : PackState) (hb : ∀ b ∈ blocks, b ≠ []) (hInv : PackInv maxB st) :
    PackInv maxB (blocks.foldl (add_block maxB) st) := by
  induction blocks generalizing st with
  | nil => exact hInv
  | cons b bs ih =>
    exact ih _ (fun x hx => hb x (List.mem_cons_of_mem _ hx))
      (add_block_inv (hb b (List.mem_cons_self _ _)) hInv)

theorem flush_page_pagesOk {maxB : Nat} {st : PackState} (hInv : PackInv maxB st) :
    ∀ pg ∈ (flush_page st).pages, PageOk maxB pg := by
  obtain ⟨hpages, _, hlen, _⟩ := hInv
  unfold flush_page
  split
  · exact hpages
  · intro pg hpg
    rcases List.mem_append.1 hpg with h | h
    · exact hpages pg h
    · rw [List.mem_singleton] at h
      subst h
      exact pageOk_of_push hlen

/-- After adding a nonempty block, the current page has a line. -/
theorem add_block_current_flatten_ne {maxB : Nat} {st : PackState}
    {b : List String} (hb : b ≠ []) :
    (add_block maxB st b).current.flatten ≠ [] := by
  unfold add_block
  split
  · cases b with
    | nil => exact absurd rfl hb
    | cons x xs => simp
  · cases b with
    | nil => exact absurd rfl hb
    | cons x xs => simp

theorem foldl_add_block_flatten_ne (maxB : Nat) (blocks : List (List String))
    (st : PackState) (hb : ∀ b ∈ blocks, b ≠ [])
    (hst : st.current.flatten ≠ []) :
    (blocks.foldl (add_block maxB) st).current.flatten ≠ [] := by
  induction blocks generalizing st with
  | nil => exact hst
  | cons b bs ih =>
    exact ih _ (fun x hx => hb x (List.mem_cons_of_mem _ hx))
      (add_block_current_flatten_ne (hb b (List.mem_cons_self _ _)))

/-- With a nonempty first block, the paginator emits at least one page. -/
theorem flush_pages_ne (maxB : Nat) (b0 : List String) (blocks : List (List String))
    (hb0 : b0 ≠ []) (hb : ∀ b ∈ blocks, b ≠ []) :
    (flush_page ((b0 :: blocks).foldl (add_block maxB) ⟨[], [], 0⟩)).pages ≠ [] := by
  have hflat : ((b0 :: blocks).foldl (add_block maxB) ⟨[], [], 0⟩).current.flatten ≠ [] := by
    rw [List.foldl_cons]
    exact foldl_add_block_flatten_ne maxB blocks _ hb
      (add_block_current_flatten_ne hb0)
  unfold flush_page
  split
  · rename_i hemp
    exfalso
    exact hflat (by simpa [List.isEmpty_iff] using hemp)
  · simp

/-- The building blocks of a rendered export are never empty line lists. -/
theorem render_blocks_nonempty (repoName baseName : String) (files : List FileEntry) :
    ∀ b ∈ (preambleBlock repoName baseName files :: ["## Files"] ::
      files.map fileBlock), b ≠ [] := by
  intro b hb
  rcases List.mem_cons.1 hb with rfl | hb
  · simp [preambleBlock]
  rcases List.mem_cons.1 hb with rfl | hb
  · simp
  · rcases List.mem_map.1 hb with ⟨f, _, rfl⟩
    simp [fileBlock]

/-- The page strings are exactly the block-level pages, joined. -/
theorem render_markdown_pages_eq (repoName baseName : String)
    (files : List FileEntry) (maxPageBytes : Nat) :
    render_markdown_pages repoName baseName files maxPageBytes =
      (renderBlocks repoName baseName files maxPageBytes).map
        (fun page => String.intercalate "\n" page.flatten) := by
  unfold render_markdown_pages renderBlocks
  by_cases hfe : files.isEmpty
  · rw [if_pos hfe, if_pos hfe]
    rfl
  · rw [if_neg hfe, if_neg hfe]
    rw [if_neg]
    intro hemp
    rw [List.isEmpty_iff] at hemp
    exact flush_pages_ne maxPageBytes _ _
      (by simp [preambleBlock])
      (fun b hb => render_blocks_nonempty repoName baseName files b
        (List.mem_cons_of_mem _ hb))
      hemp

/-- C3: every page of `render_markdown_pages` either fits in the byte
budget (counting each line's UTF-8 bytes plus one terminator byte) or
is exactly one block that alone exceeds it; pages are formed of whole
blocks, so a file's block is never split across pages (each page string
is its blocks' lines joined). -/
theorem render_markdown_pages_respects_budget (repoName baseName : String)
    (files : List FileEntry) (maxPageBytes : Nat) :
    (∀ page ∈ renderBlocks repoName baseName files maxPageBytes,
        pageBytes page ≤ maxPageBytes ∨
          ∃ b, page = [b] ∧ block_size b > maxPageBytes) ∧
    render_markdown_pages repoName baseName files maxPageBytes =
      (renderBlocks repoName baseName files maxPageBytes).map
        (fun page => String.intercalate "\n" page.flatten) := by
  refine ⟨?_, render_markdown_pages_eq repoName baseName files maxPageBytes⟩
  intro page hpage
  unfold renderBlocks at hpage
  by_cases hfe : files.isEmpty
  · rw [if_pos hfe] at hpage
    rw [List.mem_singleton] at hpage
    subst hpage
    have : PageOk maxPageBytes [["# " ++ repoName, "", "_선택된 파일이 없습니다._"]] :=
      pageOk_of_push (Or.inl (by simp))
    exact this
  · rw [if_neg hfe] at hpage
    have hInv := foldl_add_block_inv maxPageBytes _ ⟨[], [], 0⟩
      (render_blocks_nonempty repoName baseName files)
      ⟨by simp, by simp [pageBytes, block_size], Or.inl (by simp), by simp⟩
    exact flush_page_pagesOk hInv page hpage

/-! ## The 3 MB file / 2 MB budget scenario (C8) -/

theorem utf8ByteSize_replicate_a (n : Nat) :
    (String.mk (List.replicate n 'a')).utf8ByteSize = n := by
  show String.utf8ByteSize.go (List.replicate n 'a') = n
  induction n with
  | zero => rfl
  | succ k ih =>
    rw [List.replicate_succ, String.utf8ByteSize.go, ih]
    rfl

theorem add_block_no_flush {maxB : Nat} {st : PackState} {b : List String}
    (h : st.current.flatten.isEmpty = true ∨ st.currentBytes + block_size b ≤ maxB) :
    add_block maxB st b =
      ⟨st.pages, st.current ++ [b], st.currentBytes + block_size b⟩ := by
  unfold add_block
  rw [if_neg]
  intro hc
  rw [Bool.and_eq_true, Bool.not_eq_true'] at hc
  rcases h with h | h
  · rw [h] at hc
    exact absurd hc.1 (by decide)
  · exact absurd (of_decide_eq_true hc.2) (by omega)

theorem add_block_flush {maxB : Nat} {st : PackState} {b : List String}
    (h1 : st.current.flatten.isEmpty = false)
    (h2 : maxB < st.currentBytes + block_size b) :
    add_block maxB st b = ⟨st.pages ++ [st.current], [b], block_size b⟩ := by
  unfold add_block
  rw [if_pos]
  rw [Bool.and_eq_true, Bool.not_eq_true']
  exact ⟨h1, decide_eq_true h2⟩

/-- A single file whose block exceeds the page budget lands whole in a
second page; the first page holds the preamble/tree and `## Files`
header. -/
theorem renderBlocks_one_big_file (content : String)
    (hbig : 2 * 1024 * 1024 < content.utf8ByteSize) :
    renderBlocks "repo" "repo" [⟨["big.txt"], some content⟩] (2 * 1024 * 1024) =
      [[preambleBlock "repo" "repo" [⟨["big.txt"], some content⟩], ["## Files"]],
       [fileBlock ⟨["big.txt"], some content⟩]] := by
  have hpre : preambleBlock "repo" "repo" [⟨["big.txt"], some content⟩] =
      preambleBlock "repo" "repo" [⟨["big.txt"], none⟩] := rfl
  have hbP : block_size (preambleBlock "repo" "repo" [⟨["big.txt"], some content⟩]) = 429 := by
    rw [hpre]
    decide
  have hbH : block_size (["## Files"] : List String) = 9 := by rfl
  have hs1 : ("### `big.txt`" : String).utf8ByteSize = 13 := rfl
  have hs2 : ("```txt" : String).utf8ByteSize = 6 := rfl
  have hs3 : ("```" : String).utf8ByteSize = 3 := rfl
  have hs4 : ("" : String).utf8ByteSize = 0 := rfl
  have hbF : block_size (fileBlock ⟨["big.txt"], some content⟩) =
      content.utf8ByteSize + 27 := by
    show block_size ["### `big.txt`", "```txt", content, "```", ""] = _
    simp [block_size, hs1, hs2, hs3, hs4]
    omega
  have e1 : add_block (2 * 1024 * 1024) ⟨[], [], 0⟩
      (preambleBlock "repo" "repo" [⟨["big.txt"], some content⟩]) =
      ⟨[], [preambleBlock "repo" "repo" [⟨["big.txt"], some content⟩]],
        block_size (preambleBlock "repo" "repo" [⟨["big.txt"], some content⟩])⟩ := by
    unfold add_block
    rw [if_neg (by simp)]
    simp
  have e2 : add_block (2 * 1024 * 1024)
      ⟨[], [preambleBlock "repo" "repo" [⟨["big.txt"], some content⟩]],
        block_size (preambleBlock "repo" "repo" [⟨["big.txt"], some content⟩])⟩
      ["## Files"] =
      ⟨[], [preambleBlock "repo" "repo" [⟨["big.txt"], some content⟩], ["## Files"]],
        block_size (preambleBlock "repo" "repo" [⟨["big.txt"], some content⟩]) +
          block_size (["## Files"] : List String)⟩ := by
    rw [add_block_no_flush (Or.inr (by rw [hbP, hbH]; norm_num))]
    simp
  have e3 : add_block (2 * 1024 * 1024)
      ⟨[], [preambleBlock "repo" "repo" [⟨["big.txt"], some content⟩], ["## Files"]],
        block_size (preambleBlock "repo" "repo" [⟨["big.txt"], some content⟩]) +
          block_size (["## Files"] : List String)⟩
      (fileBlock ⟨["big.txt"], some content⟩) =
      ⟨[[preambleBlock "repo" "repo" [⟨["big.txt"], some content⟩], ["## Files"]]],
        [fileBlock ⟨["big.txt"], some content⟩],
        block_size (fileBlock ⟨["big.txt"], some content⟩)⟩ := by
    rw [@add_block_flush (2 * 1024 * 1024)
        ⟨[], [preambleBlock "repo" "repo" [⟨["big.txt"], some content⟩], ["## Files"]],
          block_size (preambleBlock "repo" "repo" [⟨["big.txt"], some content⟩]) +
            block_size (["## Files"] : List String)⟩
        (fileBlock ⟨["big.txt"], some content⟩)
        rfl
        (by
          show 2 * 1024 * 1024 <
            block_size (preambleBlock "repo" "repo" [⟨["big.txt"], some content⟩]) +
              block_size (["## Files"] : List String) +
              block_size (fileBlock ⟨["big.txt"], some content⟩)
          rw [hbP, hbH, hbF]
          omega)]
    simp
  unfold renderBlocks
  rw [if_neg (by simp)]
  rw [List.map_cons, List.map_nil]
  rw [List.foldl_cons, List.foldl_cons, List.foldl_cons, List.foldl_nil]
  rw [e1, e2, e3]
  unfold flush_page
  rw [if_neg]
  · rfl
  · show ¬ (([fileBlock ⟨["big.txt"], some content⟩] : List (List String)).flatten.isEmpty = true)
    simp [fileBlock]

/-- C8 counterexample: with one 3 MB file and a 2 MB budget the
paginator does not produce exactly one page (the preamble/tree page is
separate from the file's page). -/
theorem render_pages_3mb_not_single_page :
    ¬ ((render_markdown_pages "repo" "repo"
        [⟨["big.txt"], some (String.mk (List.replicate (3 * 1024 * 1024) 'a'))⟩]
        (2 * 1024 * 1024)).length = 1) := by
  have hbig : 2 * 1024 * 1024 <
      (String.mk (List.replicate (3 * 1024 * 1024) 'a')).utf8ByteSize := by
    rw [utf8ByteSize_replicate_a]
    norm_num
  rw [render_markdown_pages_eq, renderBlocks_one_big_file _ hbig]
  simp only [List.length_map, List.length_cons, List.length_nil]
  omega

/-- C8 (amended): with one 3 MB file and a 2 MB budget,
`render_markdown_pages` produces exactly two pages — the preamble/tree
and header on the first, and the file's block whole (never split) as
the only block of the second. -/
theorem render_pages_3mb_two_pages :
    renderBlocks "repo" "repo"
        [⟨["big.txt"], some (String.mk (List.replicate (3 * 1024 * 1024) 'a'))⟩]
        (2 * 1024 * 1024) =
      [[preambleBlock "repo" "repo"
          [⟨["big.txt"], some (String.mk (List.replicate (3 * 1024 * 1024) 'a'))⟩],
        ["## Files"]],
       [fileBlock ⟨["big.txt"], some (String.mk (List.replicate (3 * 1024 * 1024) 'a'))⟩]] ∧
    (render_markdown_pages "repo" "repo"
        [⟨["big.txt"], some (String.mk (List.replicate (3 * 1024 * 1024) 'a'))⟩]
        (2 * 1024 * 1024)).length = 2 := by
  have hbig : 2 * 1024 * 1024 <
      (String.mk (List.replicate (3 * 1024 * 1024) 'a')).utf8ByteSize := by
    rw [utf8ByteSize_replicate_a]
    norm_num
  refine ⟨renderBlocks_one_big_file _ hbig, ?_⟩
  rw [render_markdown_pages_eq, renderBlocks_one_big_file _ hbig]
  simp only [List.length_map, List.length_cons, List.length_nil]

/-! ## Ordering lemmas for Python's sort keys -/

theorem charListLe_total : ∀ as bs : List Char,
    (charListLe as bs || charListLe bs as) = true
  | [], _ => by simp [charListLe]
  | _ :: _, [] => by simp [charListLe]
  | a :: as, b :: bs => by
    unfold charListLe
    by_cases h1 : a.toNat < b.toNat
    · simp [h1]
    · by_cases h2 : b.toNat < a.toNat
      · simp [h1, h2]
      · simpa [h1, h2] using charListLe_total as bs

theorem charListLe_trans : ∀ as bs cs : List Char,
    charListLe as bs = true → charListLe bs cs = true → charListLe as cs = true
  | [], _, _, _, _ => by simp [charListLe]
  | a :: as, [], _, h1, _ => by simp [charListLe] at h1
  | a :: as, b :: bs, [], _, h2 => by simp [charListLe] at h2
  | a :: as, b :: bs, c :: cs, h1, h2 => by
    unfold charListLe at h1 h2 ⊢
    by_cases hab : a.toNat < b.toNat
    · rw [if_pos hab] at h1
      by_cases hbc : b.toNat < c.toNat
      · rw [if_pos (show a.toNat < c.toNat by omega)]
      · rw [if_neg hbc] at h2
        by_cases hcb : c.toNat < b.toNat
        · rw [if_pos hcb] at h2
          exact absurd h2 (by simp)
        · rw [if_pos (show a.toNat < c.toNat by omega)]
    · rw [if_neg hab] at h1
      by_cases hba : b.toNat < a.toNat
      · rw [if_pos hba] at h1
        exact absurd h1 (by simp)
      · rw [if_neg hba] at h1
        by_cases hbc : b.toNat < c.toNat
        · rw [if_pos (show a.toNat < c.toNat by omega)]
        · rw [if_neg hbc] at h2
          by_cases hcb : c.toNat < b.toNat
          · rw [if_pos hcb] at h2
            exact absurd h2 (by simp)
          · rw [if_neg hcb] at h2
            rw [if_neg (show ¬ a.toNat < c.toNat by omega),
                if_neg (show ¬ c.toNat < a.toNat by omega)]
            exact charListLe_trans as bs cs h1 h2

theorem pyStrLe_total (s t : String) : (pyStrLe s t || pyStrLe t s) = true :=
  charListLe_total s.data t.data

theorem pyStrLe_trans {s t u : String} (h1 : pyStrLe s t = true)
    (h2 : pyStrLe t u = true) : pyStrLe s u = true :=
  charListLe_trans s.data t.data u.data h1 h2

/-- Python's comparison of `(bool, str)` sort keys. -/
def pairKeyLe (a b : Bool × String) : Bool :=
  (!a.1 && b.1) || (a.1 == b.1 && pyStrLe a.2 b.2)

theorem pairKeyLe_total (a b : Bool × String) :
    (pairKeyLe a b || pairKeyLe b a) = true := by
  obtain ⟨x, s⟩ := a
  obtain ⟨y, t⟩ := b
  cases x <;> cases y <;> simp [pairKeyLe] <;>
    simpa using pyStrLe_total s t

theorem pairKeyLe_trans {a b c : Bool × String} (h1 : pairKeyLe a b = true)
    (h2 : pairKeyLe b c = true) : pairKeyLe a c = true := by
  obtain ⟨x, s⟩ := a
  obtain ⟨y, t⟩ := b
  obtain ⟨z, u⟩ := c
  cases x <;> cases y <;> cases z <;>
    simp only [pairKeyLe, Bool.not_true, Bool.not_false, Bool.false_and,
      Bool.true_and, Bool.and_true, Bool.and_false, beq_self_eq_true,
      Bool.true_or, Bool.false_or, Bool.or_false, Bool.or_true,
      beq_iff_eq, Bool.true_eq_false, Bool.false_eq_true, false_and,
      true_and, false_or, or_false, decide_eq_true_eq] at h1 h2 ⊢ <;>
    first
      | trivial
      | exact pyStrLe_trans h1 h2

/-! ## Tree construction (`utils.list_files_and_extensions`) and selection
(`utils.collect_files_for_export`)

A directory tree on disk is an `FSEntry`; symbolic links are opaque
entries (the walker never follows them). -/

inductive FSEntry where
  | file (name : String)
  | link (name : String)
  | dir (name : String) (children : List FSEntry)
deriving Repr

def entryName : FSEntry → String
  | .file n => n
  | .link n => n
  | .dir n _ => n

/-- `p.is_file()` on a walked entry (links are filtered before use). -/
def entryIsFile : FSEntry → Bool
  | .file _ => true
  | _ => false

/-- `utils.EXCLUDED_DIRS`. -/
def EXCLUDED_DIRS : List String :=
  [".git", ".github", ".gitlab", ".svn", ".hg", "__pycache__", ".mypy_cache",
   ".pytest_cache", ".idea", ".vscode", "node_modules", "dist", "build", "out",
   ".next", ".nuxt", ".expo", ".parcel-cache", ".sass-cache", ".cache",
   "coverage", "target", "bin", "obj", ".gradle", ".terraform", ".serverless"]

/-- `utils.EXCLUDED_FILES`. -/
def EXCLUDED_FILES : List String := [".DS_Store", "Thumbs.db", "desktop.ini"]

/-- `utils.EXCLUDED_FILE_TYPES`. -/
def EXCLUDED_FILE_TYPES : List String :=
  [".png", ".jpg", ".jpeg", ".gif", ".bmp", ".svg", ".ico", ".icns",
   ".jar", ".war", ".ear", ".class", ".pyc", ".pyo",
   ".zip", ".tar", ".gz", ".tgz", ".bz2", ".xz",
   ".log", ".tmp", ".swp", ".swo",
   ".lock", ".env.local", ".env.production", ".env.development"]

/-- The dotfile allow-list used by both the walker and the selector. -/
def DOT_ALLOWED : List String := [".gitignore", ".env.example", ".env.sample"]

/-- `name.startswith(".") and name not in {...}`. -/
def dotExcluded (n : String) : Bool :=
  pyStartsWith n "." && !DOT_ALLOWED.contains n

/-- The `is_within_base(p.resolve(), base_dir.resolve())` guard for the
entry at relative parts `rel` under `base`. -/
def withinChk (base : PathC) (rel : List String) : Bool :=
  is_within_base (resolveP (base ++ rel)) (resolveP base)

/-- The walker's per-entry filter (`walk`'s chain of `continue`s):
symlinks, non-allow-listed dotfiles, excluded directory names, excluded
file names/extensions, and entries escaping the base are dropped. -/
def keepEntry (base : PathC) (cur : List String) : FSEntry → Bool
  | .link _ => false
  | .dir n _ =>
    !dotExcluded n && !EXCLUDED_DIRS.contains n && withinChk base (cur ++ [n])
  | .file n =>
    !dotExcluded n &&
    !(EXCLUDED_FILES.contains n || EXCLUDED_FILE_TYPES.contains (pySuffix n)) &&
    withinChk base (cur ++ [n])

/-- A produced tree node (`{"name": …, "path": …, "type": …}`). -/
inductive MdNode where
  | file (name : String) (path : String)
  | dir (name : String) (path : String) (children : List MdNode)
deriving Repr

def nodeKey : MdNode → Bool × String
  | .file n _ => (true, strLower n)
  | .dir n _ _ => (false, strLower n)

/-- `sorted(entries, key=lambda p: (p.is_file(), p.name.lower()))`'s key. -/
def entKey (e : FSEntry) : Bool × String := (entryIsFile e, strLower (entryName e))

/-- One walked child: whether the filter kept it, its sort key parts,
and the recursive walk result. -/
structure WalkChild where
  keep : Bool
  isFile : Bool
  lowName : String
  res : Option MdNode × List String

/-- The child relation used to sort walked children:
`(is_file, name.lower())` compared as Python compares tuples. -/
def wcLe (x y : WalkChild) : Prop :=
  pairKeyLe (x.isFile, x.lowName) (y.isFile, y.lowName) = true

instance : DecidableRel wcLe := fun a b => by
  unfold wcLe
  infer_instance

/-- `sorted(entries, …)` + the child loop of `walk`: keep the filtered
children, sort them by `(is_file, name.lower())` (Python's stable
sort), and collect the nodes the recursion produced. -/
def assembleChildren (l : List WalkChild) : List MdNode :=
  ((List.insertionSort wcLe (l.filter (fun t => t.keep))).map
    (fun t => t.res)).filterMap (fun r => r.1)

/-- The extensions contributed by the kept children. -/
def childExts (l : List WalkChild) : List String :=
  ((l.filter (fun t => t.keep)).map (fun t => t.res.2)).flatten

/-! `utils.list_files_and_extensions.walk`, with `cur` the relative
path of the entry being visited.  The recursive results of all
children are computed first (walking one entry is independent of its
siblings), then the kept ones are sorted by Python's key and
assembled, mirroring the filter → sort → recurse order of the source. -/
mutual

def walk (base : PathC) (cur : List String) : FSEntry → Option MdNode × List String
  | .file n =>
    (some (.file n (relPosix cur)),
     if pySuffix n != "" then [pySuffix n] else [])
  | .link _ => (none, [])
  | .dir n cs =>
    (if cur != [] && (assembleChildren (walkChildren base cur cs)).isEmpty then none
     else some (.dir n (relPosix cur) (assembleChildren (walkChildren base cur cs))),
     childExts (walkChildren base cur cs))

def walkChildren (base : PathC) (cur : List String) :
    List FSEntry → List WalkChild
  | [] => []
  | c :: cs =>
    ⟨keepEntry base cur c, entryIsFile c, strLower (entryName c),
      walk base (cur ++ [entryName c]) c⟩ :: walkChildren base cur cs

end

/-- `utils.list_files_and_extensions`: the tree from `walk` plus the
sorted distinct extension list. -/
def list_files_and_extensions (base : PathC) (root : FSEntry) :
    Option MdNode × List String :=
  ((walk base [] root).1,
   List.insertionSort (fun a b : String => pyStrLe a b = true)
     ((walk base [] root).2).dedup)

/-! ## The tree invariant (C4) -/

/-- A non-root node may not be an empty directory (pruning). -/
def nonEmptyShape : MdNode → Bool
  | .file _ _ => true
  | .dir _ _ cs => !cs.isEmpty

/-- Adjacent children are ordered by `(is_file, name.lower())`:
directories before files, each group case-insensitively by name. -/
def sortedNodeKeys : List MdNode → Bool
  | [] => true
  | [_] => true
  | a :: b :: t => pairKeyLe (nodeKey a) (nodeKey b) && sortedNodeKeys (b :: t)

mutual

def goodNode : MdNode → Bool
  | .file _ _ => true
  | .dir _ _ cs => sortedNodeKeys cs && goodChildren cs

def goodChildren : List MdNode → Bool
  | [] => true
  | c :: cs => nonEmptyShape c && goodNode c && goodChildren cs

end

theorem goodChildren_of_forall : ∀ {cs : List MdNode},
    (∀ c ∈ cs, nonEmptyShape c = true ∧ goodNode c = true) →
    goodChildren cs = true
  | [], _ => rfl
  | c :: cs, h => by
    have hc := h c (List.mem_cons_self _ _)
    have hrest := goodChildren_of_forall (fun x hx => h x (List.mem_cons_of_mem _ hx))
    unfold goodChildren
    rw [hc.1, hc.2, hrest]
    rfl

theorem sortedNodeKeys_of_pairwise : ∀ {l : List MdNode},
    List.Pairwise (fun a b => pairKeyLe (nodeKey a) (nodeKey b) = true) l →
    sortedNodeKeys l = true
  | [], _ => rfl
  | [_], _ => rfl
  | a :: b :: t, h => by
    rw [List.pairwise_cons] at h
    unfold sortedNodeKeys
    rw [h.1 b (List.mem_cons_self _ _), sortedNodeKeys_of_pairwise h.2]
    rfl

theorem pairwise_filterMap_of {α β : Type} (f : α → Option β)
    {R : α → α → Prop} {S : β → β → Prop} : ∀ {l : List α},
    List.Pairwise R l →
    (∀ a ∈ l, ∀ b ∈ l, R a b → ∀ x, f a = some x → ∀ y, f b = some y → S x y) →
    List.Pairwise S (l.filterMap f)
  | [], _, _ => List.Pairwise.nil
  | a :: l, h, hf => by
    rw [List.pairwise_cons] at h
    rw [List.filterMap_cons]
    have hrest : List.Pairwise S (l.filterMap f) :=
      pairwise_filterMap_of f h.2
        (fun x hx y hy hr => hf x (List.mem_cons_of_mem _ hx)
          y (List.mem_cons_of_mem _ hy) hr)
    cases hfa : f a with
    | none => exact hrest
    | some x =>
      rw [List.pairwise_cons]
      refine ⟨?_, hrest⟩
      intro y hy
      rcases List.mem_filterMap.1 hy with ⟨b, hb, hfb⟩
      exact hf a (List.mem_cons_self _ _) b (List.mem_cons_of_mem _ hb)
        (h.1 b hb) x hfa y hfb

theorem wcLe_total : ∀ a b : WalkChild, wcLe a b ∨ wcLe b a := by
  intro a b
  have := pairKeyLe_total (a.isFile, a.lowName) (b.isFile, b.lowName)
  rcases Bool.or_eq_true_iff.1 this with h | h
  · exact Or.inl h
  · exact Or.inr h

theorem wcLe_trans : ∀ a b c : WalkChild, wcLe a b → wcLe b c → wcLe a c :=
  fun _ _ _ h1 h2 => pairKeyLe_trans h1 h2

/-- Everything `walk`'s child loop guarantees when the per-child
results are good: the assembled children are key-sorted, and each is a
good, non-empty-shaped node. -/
theorem assembleChildren_good (W : List WalkChild)
    (hW : ∀ t ∈ W, ∀ node, t.res.1 = some node →
        goodNode node = true ∧ nodeKey node = (t.isFile, t.lowName) ∧
        nonEmptyShape node = true) :
    sortedNodeKeys (assembleChildren W) = true ∧
    goodChildren (assembleChildren W) = true := by
  have hmemS : ∀ t ∈ List.insertionSort wcLe (W.filter (fun t => t.keep)), t ∈ W := by
    intro t ht
    exact (List.mem_filter.1 ((List.mem_insertionSort wcLe).1 ht)).1
  have hform : assembleChildren W =
      (List.insertionSort wcLe (W.filter (fun t => t.keep))).filterMap
        (fun t => t.res.1) := by
    unfold assembleChildren
    rw [List.filterMap_map]
    rfl
  constructor
  · rw [hform]
    apply sortedNodeKeys_of_pairwise
    have hsorted : List.Pairwise wcLe
        (List.insertionSort wcLe (W.filter (fun t => t.keep))) :=
      @List.sorted_insertionSort WalkChild wcLe _ ⟨wcLe_total⟩
        ⟨fun a b c => wcLe_trans a b c⟩ _
    apply pairwise_filterMap_of _ hsorted
    intro a ha b hb hr x hx y hy
    have hax := (hW a (hmemS a ha) x hx).2.1
    have hby := (hW b (hmemS b hb) y hy).2.1
    rw [hax, hby]
    exact hr
  · rw [hform]
    apply goodChildren_of_forall
    intro c hc
    rcases List.mem_filterMap.1 hc with ⟨t, ht, hres⟩
    obtain ⟨hg, _, hne⟩ := hW t (hmemS t ht) c hres
    exact ⟨hne, hg⟩

/-! The walk invariant, by mutual structural induction following
`walk`/`walkChildren`. -/
mutual

theorem walk_good (base : PathC) (cur : List String) :
    ∀ e : FSEntry, ∀ node, (walk base cur e).1 = some node →
      goodNode node = true ∧ nodeKey node = entKey e ∧
      (cur ≠ [] → nonEmptyShape node = true)
  | .file n, node, h => by
    unfold walk at h
    simp only [Option.some.injEq] at h
    subst h
    exact ⟨rfl, rfl, fun _ => rfl⟩
  | .link n, node, h => by
    unfold walk at h
    exact absurd h (by simp)
  | .dir n cs, node, h => by
    have hW := walkChildren_good base cur cs
    have hAsm := assembleChildren_good (walkChildren base cur cs) hW
    unfold walk at h
    split at h
    · exact absurd h (by simp)
    · rename_i hcond
      simp only [Option.some.injEq] at h
      subst h
      refine ⟨?_, rfl, ?_⟩
      · unfold goodNode
        rw [hAsm.1, hAsm.2]
        rfl
      · intro hcur
        have hA : (cur != []) = true := by simpa [bne] using hcur
        have hB : (assembleChildren (walkChildren base cur cs)).isEmpty = false := by
          cases hE : (assembleChildren (walkChildren base cur cs)).isEmpty
          · rfl
          · exfalso
            apply hcond
            rw [hA, hE]
            rfl
        show (!(assembleChildren (walkChildren base cur cs)).isEmpty) = true
        rw [hB]
        rfl

theorem walkChildren_good (base : PathC) (cur : List String) :
    ∀ l : List FSEntry, ∀ t ∈ walkChildren base cur l, ∀ node, t.res.1 = some node →
      goodNode node = true ∧ nodeKey node = (t.isFile, t.lowName) ∧
      nonEmptyShape node = true
  | [], t, ht, node, h => absurd ht (by simp [walkChildren])
  | c :: cs, t, ht, node, h => by
    unfold walkChildren at ht
    rcases List.mem_cons.1 ht with rfl | hmem
    · obtain ⟨hg, hkey, hne⟩ := walk_good base (cur ++ [entryName c]) c node h
    -- the child's relative path is nonempty
      refine ⟨hg, ?_, hne (by simp)⟩
      rw [hkey]
      unfold entKey
      rfl
    · exact walkChildren_good base cur cs t hmem node h

end

/-- C4: the tree built by `list_files_and_extensions` always has a root
node (even when everything is filtered away); at every level the
children are ordered with directories before files and each group
sorted case-insensitively by name, and no directory below the root is
empty — a directory whose children were all excluded is pruned. -/
theorem list_files_and_extensions_tree_invariant (base : PathC)
    (rootName : String) (cs : List FSEntry) :
    ∃ node exts, list_files_and_extensions base (.dir rootName cs) = (some node, exts) ∧
      goodNode node = true := by
  have hwalk : (walk base [] (.dir rootName cs)).1 =
      some (.dir rootName (relPosix []) (assembleChildren (walkChildren base [] cs))) := by
    unfold walk
    rw [if_neg (by simp)]
  obtain ⟨hg, _, _⟩ := walk_good base [] (.dir rootName cs) _ hwalk
  refine ⟨.dir rootName (relPosix []) (assembleChildren (walkChildren base [] cs)),
    List.insertionSort (fun a b : String => pyStrLe a b = true)
      ((walk base [] (.dir rootName cs)).2).dedup, ?_, hg⟩
  unfold list_files_and_extensions
  rw [hwalk]

/-! ## File selection for export (`utils.collect_files_for_export`, C5) -/

/-- Python `s.strip("/")`: remove slashes at both ends. -/
def stripSlashes (s : String) : String :=
  String.mk (((s.data.dropWhile (fun c => c == '/')).reverse.dropWhile
    (fun c => c == '/')).reverse)

/-- Look an entry up by its relative parts (each component matched
against child names; `..` never matches a name, and the selector's
dot-rule rejects such paths anyway). -/
def lookupFS : FSEntry → List String → Option FSEntry
  | e, [] => some e
  | .dir _ cs, p :: ps =>
    match cs.find? (fun c => entryName c == p) with
    | some c => lookupFS c ps
    | none => none
  | _, _ :: _ => none

/-- `candidate.exists() and candidate.is_file()` (a symlink would be
rejected by `is_allowed_file` anyway, so it is not counted as a file). -/
def existsIsFile (root : FSEntry) (parts : List String) : Bool :=
  match lookupFS root parts with
  | some (.file _) => true
  | _ => false

/-- `path_obj.name` for `base / parts`. -/
def lastName (base : PathC) (parts : List String) : String :=
  (base ++ parts).getLastD ""

/-- `collect_files_for_export.is_allowed_file` for the candidate
`base / parts` (with `parts` the pathlib-parsed relative components):
not a symlink, no excluded or dotted ancestor segment, not an excluded
or dotted name, not an excluded extension, and inside the base. -/
def is_allowed_file (base : PathC) (root : FSEntry) (parts : List String) : Bool :=
  !(match lookupFS root parts with | some (.link _) => true | _ => false) &&
  (parts.dropLast.all (fun part =>
    !(EXCLUDED_DIRS.contains part || dotExcluded part))) &&
  !dotExcluded (lastName base parts) &&
  !(EXCLUDED_FILES.contains (lastName base parts) ||
    EXCLUDED_FILE_TYPES.contains (pySuffix (lastName base parts))) &&
  withinChk base parts

/-- `collect_files_for_export.is_in_selected_dir` on the slash-joined
relative path. -/
def is_in_selected_dir (selectedDirs : List String) (relPath : String) : Bool :=
  selectedDirs.isEmpty || selectedDirs.contains "" ||
    selectedDirs.any (fun d => relPath == d || pyStartsWith relPath (d ++ "/"))

/-! `base_dir.rglob("*")` restricted to regular files (the walker never
descends into symlinked directories). -/
mutual

def rglobFiles (cur : List String) : FSEntry → List (List String)
  | .file n => [cur ++ [n]]
  | .link _ => []
  | .dir n cs => rglobList (cur ++ [n]) cs

def rglobList (cur : List String) : List FSEntry → List (List String)
  | [] => []
  | c :: cs => rglobFiles cur c ++ rglobList cur cs

end

/-- `str(x).lower()` for an absolute path, the export sort key. -/
def pathStr (p : PathC) : String := "/" ++ String.intercalate "/" p

/-- The sort relation of `collect_files_for_export`. -/
def pathKeyLe (a b : PathC) : Prop :=
  pyStrLe (strLower (pathStr a)) (strLower (pathStr b)) = true

instance : DecidableRel pathKeyLe := fun a b => by
  unfold pathKeyLe
  infer_instance

/-- The children of the repository root entry. -/
def rootChildren : FSEntry → List FSEntry
  | .dir _ cs => cs
  | _ => []

/-- `utils.collect_files_for_export`.  A non-empty explicit file set is
processed exclusively; otherwise every file under the root is filtered
by the allow rule, the selected directories, and the selected
extensions.  Both branches sort case-insensitively by full path. -/
def collect_files_for_export (base : PathC) (root : FSEntry)
    (selected_dirs selected_exts : List String)
    (selected_files : Option (List String)) : List PathC :=
  if !(((selected_files.getD []).map stripSlashes).dedup).isEmpty then
    List.insertionSort pathKeyLe
      ((((selected_files.getD []).map stripSlashes).dedup).filterMap (fun rel =>
        if existsIsFile root (pyParts rel) && is_allowed_file base root (pyParts rel) then
          some (base ++ pyParts rel)
        else none))
  else
    List.insertionSort pathKeyLe
      ((rglobList [] (rootChildren root)).filterMap (fun parts =>
        if is_allowed_file base root parts &&
            is_in_selected_dir ((selected_dirs.map stripSlashes).dedup) (relPosix parts) &&
            (selected_exts.isEmpty || selected_exts.contains (pySuffix (lastName base parts))) then
          some (base ++ parts)
        else none))

theorem pathKeyLe_total : ∀ a b : PathC, pathKeyLe a b ∨ pathKeyLe b a := by
  intro a b
  rcases Bool.or_eq_true_iff.1
    (pyStrLe_total (strLower (pathStr a)) (strLower (pathStr b))) with h | h
  · exact Or.inl h
  · exact Or.inr h

theorem pathKeyLe_trans : ∀ a b c : PathC,
    pathKeyLe a b → pathKeyLe b c → pathKeyLe a c :=
  fun _ _ _ h1 h2 => pyStrLe_trans h1 h2

/-- C5: with a non-empty explicit file list, `collect_files_for_export`
ignores the directory and extension filters entirely and returns
exactly the listed relative paths that exist as regular files and pass
the exclusion and sandbox rules, sorted case-insensitively by full
path. -/
theorem collect_files_for_export_explicit (base : PathC) (root : FSEntry)
    (dirs exts dirs' exts' files : List String)
    (hne : ((files.map stripSlashes).dedup) ≠ []) :
    collect_files_for_export base root dirs exts (some files) =
      collect_files_for_export base root dirs' exts' (some files) ∧
    List.Pairwise pathKeyLe (collect_files_for_export base root dirs exts (some files)) ∧
    (∀ p, p ∈ collect_files_for_export base root dirs exts (some files) ↔
      ∃ rel ∈ (files.map stripSlashes).dedup,
        p = base ++ pyParts rel ∧ existsIsFile root (pyParts rel) = true ∧
        is_allowed_file base root (pyParts rel) = true) := by
  have hcond : (!(((some files : Option (List String)).getD []).map
      stripSlashes).dedup.isEmpty) = true := by
    simp only [Option.getD_some, Bool.not_eq_true']
    cases hE : ((files.map stripSlashes).dedup).isEmpty
    · rfl
    · exact absurd (List.isEmpty_iff.1 hE) hne
  refine ⟨?_, ?_, ?_⟩
  · unfold collect_files_for_export
    rw [if_pos hcond, if_pos hcond]
  · unfold collect_files_for_export
    rw [if_pos hcond]
    exact @List.sorted_insertionSort PathC pathKeyLe _ ⟨pathKeyLe_total⟩
      ⟨pathKeyLe_trans⟩ _
  · intro p
    unfold collect_files_for_export
    rw [if_pos hcond]
    rw [List.mem_insertionSort, List.mem_filterMap]
    constructor
    · rintro ⟨rel, hrel, hf⟩
      by_cases hc : (existsIsFile root (pyParts rel) &&
          is_allowed_file base root (pyParts rel)) = true
      · rw [if_pos hc] at hf
        simp only [Option.some.injEq] at hf
        rw [Bool.and_eq_true] at hc
        exact ⟨rel, hrel, hf.symm, hc.1, hc.2⟩
      · rw [if_neg hc] at hf
        exact absurd hf (by simp)
    · rintro ⟨rel, hrel, rfl, h1, h2⟩
      refine ⟨rel, hrel, ?_⟩
      rw [if_pos (by rw [h1, h2]; rfl)]

/-- Witness for C5, at the spec's own example: explicit
`["README.txt"]` beats `directories = ["src"]`, `extensions = [".md"]`
over a repo holding `src/a.md` and `README.txt`. -/
theorem collect_files_for_export_explicit_witness :
    ((["README.txt"].map stripSlashes).dedup ≠ []) ∧
    (collect_files_for_export ["r"]
        (.dir "repo" [.dir "src" [.file "a.md"], .file "README.txt"])
        ["src"] [".md"] (some ["README.txt"]) =
      collect_files_for_export ["r"]
        (.dir "repo" [.dir "src" [.file "a.md"], .file "README.txt"])
        [] [] (some ["README.txt"]) ∧
     List.Pairwise pathKeyLe (collect_files_for_export ["r"]
        (.dir "repo" [.dir "src" [.file "a.md"], .file "README.txt"])
        ["src"] [".md"] (some ["README.txt"])) ∧
     (∀ p, p ∈ collect_files_for_export ["r"]
        (.dir "repo" [.dir "src" [.file "a.md"], .file "README.txt"])
        ["src"] [".md"] (some ["README.txt"]) ↔
       ∃ rel ∈ (["README.txt"].map stripSlashes).dedup,
         p = ["r"] ++ pyParts rel ∧
         existsIsFile (.dir "repo" [.dir "src" [.file "a.md"], .file "README.txt"])
           (pyParts rel) = true ∧
         is_allowed_file ["r"]
           (.dir "repo" [.dir "src" [.file "a.md"], .file "README.txt"])
           (pyParts rel) = true)) ∧
    collect_files_for_export ["r"]
        (.dir "repo" [.dir "src" [.file "a.md"], .file "README.txt"])
        ["src"] [".md"] (some ["README.txt"]) = [["r", "README.txt"]] :=
  ⟨by decide,
   collect_files_for_export_explicit ["r"]
     (.dir "repo" [.dir "src" [.file "a.md"], .file "README.txt"])
     ["src"] [".md"] [] [] ["README.txt"] (by decide),
   by decide⟩

end Repoclip
